import Mathlib

/-!
go2vec: nearest-neighbour queries over a word-vector table.

A shallow embedding of `go2vec.go`: the query side (`dotProduct`, `minus`,
`plus`, `insertWithLimit`, `distance`, `Distance`, `Analogy`) together with
the binary search `sort.Search` it calls, and the decoder (`ReadVectors`,
`normalize`).

Modelling conventions.

* `float32` scores are elements of a type `α`.  The definitions only use the
  operations the source uses (`0`, `+`, `*`, `-`, `≤`); theorems about ranking
  take `α` to be linearly ordered, theorems about algebraic identities take a
  semiring or a ring.  Rounding is outside the model; the last section
  evaluates the definitions at scores with a NaN and at scores that overflow.
* A Go map `map[string]Vector` is a list of `(word, vector)` pairs: one
  enumeration of the map.  The `range` loop visits the pairs in list order, so
  a statement for all lists is a statement for every iteration order.  Keys
  are unique in a map; theorems that depend on this assume `NodupKeys`.
* A run-time panic (index or slice bound out of range) is `none`.
* `limit` is a Go `int` and may be negative: it is an `Int`.  Lengths and
  the indices produced by `sort.Search` are natural numbers.
* The returned pair `([]WordDistance, error)` is a `SearchReturn`; the `nil`
  slice and the `nil` error are `none`.
-/

namespace Go2vec

/-! ## Data model -/

/-- The struct `WordDistance` of the source: a word with its score. -/
structure WordDistance (α : Type) where
  Word : String
  Distance : α
deriving DecidableEq, Repr

/-- The Go return pair `([]WordDistance, error)`; `none` stands for `nil`. -/
structure SearchReturn (α : Type) where
  results : Option (List (WordDistance α))
  err : Option String
deriving DecidableEq, Repr

/-- One enumeration of a `map[string]Vector`. -/
abbrev Table (α : Type) := List (String × List α)

/-- The words of a table, in enumeration order. -/
def keys {α : Type} (vecs : Table α) : List String := vecs.map Prod.fst

/-- Map keys are unique. -/
def NodupKeys {α : Type} (vecs : Table α) : Prop := (keys vecs).Nodup

/-- The data-model invariant: all vectors of the table have one length. -/
def EqualLength {α : Type} (vecs : Table α) : Prop :=
  ∀ e₁ ∈ vecs, ∀ e₂ ∈ vecs, e₁.2.length = e₂.2.length

/-- The message built by `fmt.Errorf("Unknown word: %s", word)`. -/
def unknownWord (word : String) : String := "Unknown word: " ++ word

section Source

variable {α : Type}

/-! ## Vector arithmetic -/

/-- The loop of `dotProduct`: `sum += val * w[idx]` for each `idx, val` of `v`.
The access `w[idx]` panics when `idx` is not below `len(w)`. -/
def dotProductLoop [Add α] [Mul α] (w : List α) : List α → Nat → α → Option α
  | [], _, sum => some sum
  | val :: rest, idx, sum =>
    match w[idx]? with
    | none => none
    | some x => dotProductLoop w rest (idx + 1) (sum + val * x)

/-- Source function `dotProduct(v, w)`. -/
def dotProduct [Zero α] [Add α] [Mul α] (v w : List α) : Option α :=
  dotProductLoop w v 0 0

/-- The loop of `minus`: `result[idx] = val - w[idx]`. -/
def minusLoop [Sub α] (w : List α) : List α → Nat → Option (List α)
  | [], _ => some []
  | val :: rest, idx =>
    match w[idx]? with
    | none => none
    | some x =>
      match minusLoop w rest (idx + 1) with
      | none => none
      | some r => some ((val - x) :: r)

/-- Source function `minus(v, w)`. -/
def minus [Sub α] (v w : List α) : Option (List α) := minusLoop w v 0

/-- The loop of `plus`: `result[idx] = val + w[idx]`. -/
def plusLoop [Add α] (w : List α) : List α → Nat → Option (List α)
  | [], _ => some []
  | val :: rest, idx =>
    match w[idx]? with
    | none => none
    | some x =>
      match plusLoop w rest (idx + 1) with
      | none => none
      | some r => some ((val + x) :: r)

/-- Source function `plus(v, w)`. -/
def plus [Add α] (v w : List α) : Option (List α) := plusLoop w v 0

/-! ## Binary search and bounded insertion -/

/-- The loop of the standard library's `sort.Search`, on the interval
`[i, j)`.  The predicate may panic (`none`).  The first argument bounds the
number of iterations; running out of it also yields `none`. -/
def searchLoop (f : Nat → Option Bool) : Nat → Nat → Nat → Option Nat
  | 0, i, j => if i < j then none else some i
  | fuel + 1, i, j =>
    if i < j then
      match f ((i + j) / 2) with
      | none => none
      | some false => searchLoop f fuel ((i + j) / 2 + 1) j
      | some true => searchLoop f fuel i ((i + j) / 2)
    else some i

/-- Go's `sort.Search(n, f)`.  The interval halves at every iteration, so `n`
iterations always suffice (`searchLoop_least`). -/
def Search (n : Nat) (f : Nat → Option Bool) : Option Nat := searchLoop f n 0 n

/-- Go's builtin `copy(dst, src)`: the first `min(len(dst), len(src))`
elements of `dst` are overwritten; the result is the new content of `dst`. -/
def copy {β : Type} (dst src : List β) : List β :=
  src.take dst.length ++ dst.drop src.length

/-- Source function `insertWithLimit(slice, limit, index, value)`.  The slice
expressions `slice[index+1:]`, `slice[index:len(slice)-1]` and the assignment
`slice[index] = value` are in range exactly when `0 ≤ index < len(slice)`
(after the optional `append`). -/
def insertWithLimit [Zero α] (slice : List (WordDistance α)) (limit index : Int)
    (value : WordDistance α) : Option (List (WordDistance α)) :=
  let slice := if (slice.length : Int) < limit then slice ++ [⟨"", 0⟩] else slice
  if 0 ≤ index ∧ index < (slice.length : Int) then
    let i := index.toNat
    let moved := copy (slice.drop (i + 1)) ((slice.take (slice.length - 1)).drop i)
    some ((slice.take (i + 1) ++ moved).set i value)
  else none

/-! ## The search -/

variable [Zero α] [Add α] [Mul α] [LE α] [DecidableRel ((· ≤ ·) : α → α → Prop)]

/-- The closure handed to `sort.Search` in `distance`:
`results[i].Distance <= dist`. -/
def searchPred (results : List (WordDistance α)) (dist : α) (i : Nat) : Option Bool :=
  match results[i]? with
  | none => none
  | some r => some (decide (r.Distance ≤ dist))

/-- One iteration of the `range` loop of `distance`. -/
def distanceStep (vec : List α) (skips : List String) (limit : Int)
    (results : List (WordDistance α)) (entry : String × List α) :
    Option (List (WordDistance α)) :=
  if entry.1 ∈ skips then some results
  else
    match dotProduct vec entry.2 with
    | none => none
    | some dist =>
      match Search results.length (searchPred results dist) with
      | none => none
      | some ip =>
        if (ip : Int) < limit then
          insertWithLimit results limit (ip : Int) ⟨entry.1, dist⟩
        else some results

/-- The `range` loop of `distance` over the entries still to visit. -/
def distanceLoop (vec : List α) (skips : List String) (limit : Int) :
    Table α → List (WordDistance α) → Option (List (WordDistance α))
  | [], results => some results
  | entry :: rest, results =>
    match distanceStep vec skips limit results entry with
    | none => none
    | some results1 => distanceLoop vec skips limit rest results1

/-- Source function `distance(vecs, vec, skips, limit)`. -/
def distance (vecs : Table α) (vec : List α) (skips : List String) (limit : Int) :
    Option (SearchReturn α) :=
  match distanceLoop vec skips limit vecs [] with
  | none => none
  | some results => some ⟨some results, none⟩

/-- Source function `Distance(vecs, word, limit)`. -/
def Distance (vecs : Table α) (word : String) (limit : Int) : Option (SearchReturn α) :=
  match vecs.lookup word with
  | none => some ⟨none, some (unknownWord word)⟩
  | some v => distance vecs v [word] limit

/-- Source function `Analogy(vecs, word1, word2, word3, limit)`. -/
def Analogy [Sub α] (vecs : Table α) (word1 word2 word3 : String) (limit : Int) :
    Option (SearchReturn α) :=
  match vecs.lookup word1 with
  | none => some ⟨none, some (unknownWord word1)⟩
  | some v1 =>
    match vecs.lookup word2 with
    | none => some ⟨none, some (unknownWord word2)⟩
    | some v2 =>
      match vecs.lookup word3 with
      | none => some ⟨none, some (unknownWord word3)⟩
      | some v3 =>
        match minus v2 v1 with
        | none => none
        | some d =>
          match plus d v3 with
          | none => none
          | some v4 => distance vecs v4 [word1, word2, word3] limit

end Source

/-! ## The decoder

The byte stream is a finite list of bytes (natural numbers below 256); read
errors other than the end of the stream, and allocation limits, are outside
the model.  The standard library functions `ReadVectors` calls are modelled
as follows.

* `fmt.Fscanf(r, "%d", &n)` is a parameter `scan`: it yields the number read
  and the rest of the stream, or `none` when it fails.
* `strings.TrimSpace(string(bytes))` is a parameter `toWord`.
* `math.Float32frombits` is a parameter `fromBits`, and `math.Sqrt` with the
  two conversions around it is a parameter `sqrt`.
* `bufio.Reader.ReadString` and `binary.Read` (through `io.ReadFull`) are
  modelled on the byte list.
-/

section Decoder

variable {α : Type}

/-- The errors `ReadVectors` can return: a failed header scan, `io.EOF`,
`io.ErrUnexpectedEOF`. -/
inductive ReadError where
  | header
  | eof
  | unexpectedEOF
deriving DecidableEq, Repr

/-- The Go return pair `(map[string]Vector, error)`; `none` stands for `nil`. -/
structure ReadReturn (α : Type) where
  table : Option (Table α)
  err : Option ReadError
deriving DecidableEq, Repr

/-- Go's `r.ReadString(delim)`: the bytes up to and including the first
`delim`, the rest of the stream, and whether the stream ended before a
`delim` was found (the error `io.EOF`, with the bytes read so far). -/
def readString (delim : Nat) : List Nat → List Nat × List Nat × Bool
  | [] => ([], [], true)
  | b :: bs =>
    if b = delim then ([b], bs, false)
    else ((b :: (readString delim bs).1), (readString delim bs).2.1, (readString delim bs).2.2)

/-- Go's `io.ReadFull` on a buffer of `n` bytes: the bytes read and the rest
of the stream; `io.EOF` when no byte could be read, `io.ErrUnexpectedEOF` when
the stream ended after some but not all bytes. -/
def readFull (n : Nat) (r : List Nat) : Except ReadError (List Nat × List Nat) :=
  if n ≤ r.length then Except.ok (r.take n, r.drop n)
  else if r.length = 0 then Except.error ReadError.eof
  else Except.error ReadError.unexpectedEOF

/-- The decoding of `binary.Read(r, binary.LittleEndian, vec)`: each group of
four bytes is a little-endian 32-bit pattern. -/
def decodeFloats (fromBits : Nat → α) : List Nat → List α
  | b0 :: b1 :: b2 :: b3 :: rest =>
    fromBits (b0 + 2 ^ 8 * b1 + 2 ^ 16 * b2 + 2 ^ 24 * b3) :: decodeFloats fromBits rest
  | _ => []

/-- The first loop of `normalize`: `vecLen += val * val`. -/
def sumSquares [Zero α] [Add α] [Mul α] (vec : List α) : α :=
  vec.foldl (fun vecLen val => vecLen + val * val) 0

/-- Source function `normalize(vec)`; the result is the new content of the
slice. -/
def normalize [Zero α] [Add α] [Mul α] [Div α] (sqrt : α → α) (vec : List α) : List α :=
  vec.map (fun val => val / sqrt (sumSquares vec))

/-- The map assignment `vecs[word] = vec`: the value of the existing key is
replaced, a new key is added. -/
def mapSet : Table α → String → List α → Table α
  | [], word, vec => [(word, vec)]
  | (k, u) :: rest, word, vec =>
    if k = word then (word, vec) :: rest else (k, u) :: mapSet rest word vec

/-- The `for` loop of `ReadVectors`, with `n` words still to read.  The error
of `ReadString` is overwritten by the result of `binary.Read` without being
looked at. -/
def readLoop [Zero α] [Add α] [Mul α] [Div α] (toWord : List Nat → String)
    (fromBits : Nat → α) (sqrt : α → α) (vSize : Nat) :
    Nat → List Nat → Table α → ReadReturn α
  | 0, _, vecs => ⟨some vecs, none⟩
  | n + 1, r, vecs =>
    match readFull (4 * vSize) (readString 32 r).2.1 with
    | Except.error e => ⟨none, some e⟩
    | Except.ok (bytes, rest) =>
      readLoop toWord fromBits sqrt vSize n rest
        (mapSet vecs (toWord (readString 32 r).1) (normalize sqrt (decodeFloats fromBits bytes)))

/-- Source function `ReadVectors(r)`. -/
def ReadVectors [Zero α] [Add α] [Mul α] [Div α] (scan : List Nat → Option (Nat × List Nat))
    (toWord : List Nat → String) (fromBits : Nat → α) (sqrt : α → α) (r : List Nat) :
    ReadReturn α :=
  match scan r with
  | none => ⟨none, some ReadError.header⟩
  | some (nWords, r1) =>
    match scan r1 with
    | none => ⟨none, some ReadError.header⟩
    | some (vSize, r2) => readLoop toWord fromBits sqrt vSize nWords r2 []

end Decoder

/-! ## Reference definitions

Definitions that follow the words of the specification; the theorems below
compare the source functions with them. -/

section Reference

variable {α : Type}

/-- The scores of a result list, in list order. -/
def scores (r : List (WordDistance α)) : List α := r.map WordDistance.Distance

/-- The words of a result list, in list order. -/
def words (r : List (WordDistance α)) : List String := r.map WordDistance.Word

/-- Ranking order of results: `a` may stand before `b` when the score of `b`
is at most the score of `a`. -/
def RanksBefore [LE α] (a b : WordDistance α) : Prop := b.Distance ≤ a.Distance

/-- A result list is sorted non-increasing by score: for all positions
`i < j`, `r[i].Distance ≥ r[j].Distance`. -/
def NonIncreasing [LE α] (r : List (WordDistance α)) : Prop :=
  ∀ (i j : Nat) (a b : WordDistance α),
    i < j → r[i]? = some a → r[j]? = some b → b.Distance ≤ a.Distance

/-- The table entries a search considers: those whose word is not in the
skip set, in enumeration order. -/
def eligible (skips : List String) (vecs : Table α) : Table α :=
  vecs.filter (fun e => decide (e.1 ∉ skips))

/-- The query vector is no longer than the vector of any entry the search
considers.  It holds whenever the query and all table vectors share the
length `vSize` of the data model. -/
def QueryFits (vec : List α) (skips : List String) (vecs : Table α) : Prop :=
  ∀ e ∈ vecs, e.1 ∉ skips → vec.length ≤ e.2.length

/-- The scored candidates of a search: every entry that is not skipped,
paired with `dotProduct(query, entry)`, in enumeration order.  It is `none`
when one of these dot products is undefined. -/
def candidates [Zero α] [Add α] [Mul α] (vec : List α) (skips : List String) :
    Table α → Option (List (WordDistance α))
  | [] => some []
  | entry :: rest =>
    if entry.1 ∈ skips then candidates vec skips rest
    else
      match dotProduct vec entry.2 with
      | none => none
      | some dist =>
        match candidates vec skips rest with
        | none => none
        | some cs => some (⟨entry.1, dist⟩ :: cs)

/-- The naive search of the specification: score every entry that is not
skipped, sort all scores in descending order, keep the first `k`. -/
def fullSortThenTruncate [Zero α] [Add α] [Mul α] [LE α]
    [DecidableRel ((· ≤ ·) : α → α → Prop)] (vecs : Table α)
    (vec : List α) (skips : List String) (k : Nat) : Option (List α) :=
  match candidates vec skips vecs with
  | none => none
  | some cs => some (((scores cs).insertionSort (· ≥ ·)).take k)

/-- The scores of the list a search call returned; `none` when the call did
not return a list with a `nil` error. -/
def returnedScores (out : Option (SearchReturn α)) : Option (List α) :=
  match out with
  | some ⟨some r, none⟩ => some (scores r)
  | _ => none

/-- Insert a result at its rank and keep the first `k`. -/
def boundedInsert [LinearOrder α] (k : Nat) (buf : List (WordDistance α))
    (v : WordDistance α) : List (WordDistance α) :=
  (buf.orderedInsert (fun a b => b.Distance ≤ a.Distance) v).take k

/-- The sum over all indices `i < n` of `v[i] * w[i]`. -/
def sumOfProducts [Semiring α] (n : Nat) (v w : List α) : α :=
  ∑ i in Finset.range n, v.getD i 0 * w.getD i 0

/-- The query vector of an analogy in the words of the specification:
`(vector(word2) - vector(word1)) + vector(word3)`, componentwise, not
normalized. -/
def analogyQuery [Sub α] [Add α] (v1 v2 v3 : List α) : List α :=
  List.zipWith (· + ·) (List.zipWith (· - ·) v2 v1) v3

/-- The table of the specification scenario, with exact fractions. -/
def catDogFish : Table ℚ :=
  [("cat", [3 / 5, 4 / 5]), ("dog", [4 / 5, 3 / 5]), ("fish", [1, 0])]

/-- A small integer table used for concrete checks. -/
def sample : Table ℤ :=
  [("cat", [3, 4]), ("dog", [4, 3]), ("fish", [5, 0]), ("eel", [4, 3])]

/-- The position of the first space character (byte 32) of the stream. -/
def firstSpace : List Nat → Option Nat
  | [] => none
  | b :: bs =>
    if b = 32 then some 0
    else
      match firstSpace bs with
      | none => none
      | some i => some (i + 1)

/-- The entries of a well-formed stream body, in the words of the
specification: `n` repetitions of a word token terminated by a single space
followed immediately by `vSize` four-byte floats.  Each entry is the bytes
of the token with its terminator and the bytes of the floats; `none` when
the stream ends before all `n` entries are complete. -/
def splitEntries (vSize : Nat) : Nat → List Nat → Option (List (List Nat × List Nat))
  | 0, _ => some []
  | n + 1, r =>
    match firstSpace r with
    | none => none
    | some i =>
      if 4 * vSize ≤ (r.drop (i + 1)).length then
        match splitEntries vSize n ((r.drop (i + 1)).drop (4 * vSize)) with
        | none => none
        | some es => some ((r.take (i + 1), (r.drop (i + 1)).take (4 * vSize)) :: es)
      else none

/-- The word and the decoded vector (not yet normalized) of each entry. -/
def decodeEntries (toWord : List Nat → String) (fromBits : Nat → α)
    (es : List (List Nat × List Nat)) : Table α :=
  es.map (fun e => (toWord e.1, decodeFloats fromBits e.2))

/-- The table after the entries `es` have been stored one after the other,
each under its word with its normalized vector. -/
def storeAll [Zero α] [Add α] [Mul α] [Div α] (toWord : List Nat → String)
    (fromBits : Nat → α) (sqrt : α → α) (es : List (List Nat × List Nat))
    (vecs : Table α) : Table α :=
  es.foldl
    (fun t e => mapSet t (toWord e.1) (normalize sqrt (decodeFloats fromBits e.2))) vecs

/-- Word `a` is visited before word `b` by a scan of the table. -/
def VisitedBefore (vecs : Table α) (a b : String) : Prop :=
  List.Sublist [a, b] (keys vecs)

/-- A stand-in for `fmt.Fscanf(r, "%d", &n)` in concrete checks: blanks are
skipped, then a non-empty run of decimal digits is read. -/
def scanDigits : List Nat → Nat → Nat × List Nat
  | [], acc => (acc, [])
  | b :: bs, acc => if 48 ≤ b ∧ b ≤ 57 then scanDigits bs (10 * acc + (b - 48)) else (acc, b :: bs)

/-- A stand-in for `fmt.Fscanf(r, "%d", &n)` in concrete checks. -/
def scanDecimal (r : List Nat) : Option (Nat × List Nat) :=
  match r.dropWhile (fun b => b = 32 || b = 9 || b = 13) with
  | [] => none
  | b :: bs => if 48 ≤ b ∧ b ≤ 57 then some (scanDigits (b :: bs) 0) else none

/-- A stand-in for `strings.TrimSpace(string(bytes))` in concrete checks, on
ASCII bytes. -/
def asciiWord (bytes : List Nat) : String :=
  let blank : Nat → Bool := fun b => b = 32 || (9 ≤ b && b ≤ 13)
  String.mk ((((bytes.dropWhile blank).reverse.dropWhile blank).reverse).map Char.ofNat)

/-- A stand-in for `math.Sqrt` in concrete checks over the rationals: exact
on the squares that occur there. -/
def sqrtSmall (x : ℚ) : ℚ :=
  if x = 25 then 5 else if x = 4 then 2 else if x = 1 then 1 else 0

/-- A stand-in for `math.Float32frombits` in concrete checks: the bit
pattern read as a number. -/
def bitsAsRat (bits : Nat) : ℚ := bits

/-- The bytes of the stream `"2 0\ncat "`: header `nWords = 2`, `vSize = 0`,
then the data of one word only. -/
def shortStream : List Nat := [50, 32, 48, 10, 99, 97, 116, 32]

/-- The bytes of a stream with header `nWords = 3`, `vSize = 2` and the
entries `ab` with `[3, 4]`, `c` with `[0, 2]`, `ab` with `[1, 0]`. -/
def goodStream : List Nat :=
  [51, 32, 50, 10,
   97, 98, 32, 3, 0, 0, 0, 4, 0, 0, 0, 10,
   99, 32, 0, 0, 0, 0, 2, 0, 0, 0, 10,
   97, 98, 32, 1, 0, 0, 0, 0, 0, 0, 0]

/-! ### Scores with a NaN

The definitions of the source are generic in the score type.  The two types
below instantiate them at scores that are not totally ordered, to evaluate
the code where a `float32` score is NaN or overflows. -/

/-- Integer scores together with one value `nan` that compares false with
every score, itself included, and is absorbing for `+` and `*`: the
behaviour of the NaN of `float32`. -/
inductive NanInt where
  | val (n : Int)
  | nan
deriving DecidableEq, Repr

/-- Addition: `nan` is absorbing. -/
def NanInt.add : NanInt → NanInt → NanInt
  | NanInt.val a, NanInt.val b => NanInt.val (a + b)
  | _, _ => NanInt.nan

/-- Multiplication: `nan` is absorbing. -/
def NanInt.mul : NanInt → NanInt → NanInt
  | NanInt.val a, NanInt.val b => NanInt.val (a * b)
  | _, _ => NanInt.nan

/-- The comparison `<=`: false as soon as one side is `nan`. -/
def NanInt.le : NanInt → NanInt → Prop
  | NanInt.val a, NanInt.val b => a ≤ b
  | _, _ => False

/-- The comparison `<`: false as soon as one side is `nan`. -/
def NanInt.lt : NanInt → NanInt → Prop
  | NanInt.val a, NanInt.val b => a < b
  | _, _ => False

instance NanInt.instZero : Zero NanInt := ⟨NanInt.val 0⟩

instance NanInt.instAdd : Add NanInt := ⟨NanInt.add⟩

instance NanInt.instMul : Mul NanInt := ⟨NanInt.mul⟩

instance NanInt.instLE : LE NanInt := ⟨NanInt.le⟩

instance NanInt.instLT : LT NanInt := ⟨NanInt.lt⟩

instance NanInt.decLe : DecidableRel ((· ≤ ·) : NanInt → NanInt → Prop)
  | NanInt.val a, NanInt.val b => (Int.decLe a b : Decidable (a ≤ b))
  | NanInt.val _, NanInt.nan => isFalse (fun h => h)
  | NanInt.nan, _ => isFalse (fun h => h)

instance NanInt.decLt : DecidableRel ((· < ·) : NanInt → NanInt → Prop)
  | NanInt.val a, NanInt.val b => (Int.decLt a b : Decidable (a < b))
  | NanInt.val _, NanInt.nan => isFalse (fun h => h)
  | NanInt.nan, _ => isFalse (fun h => h)

/-- A table with one NaN vector, enumerated with the NaN entry first. -/
def nanFirst : Table NanInt :=
  [("n", [NanInt.nan]), ("x", [NanInt.val 6]), ("y", [NanInt.val 8])]

/-- The same table enumerated with the NaN entry last. -/
def nanLast : Table NanInt :=
  [("x", [NanInt.val 6]), ("y", [NanInt.val 8]), ("n", [NanInt.nan])]

/-- Rational scores with the special values of `float32`: the two
infinities and NaN.  A finite result of magnitude `2 ^ 128` or more
overflows to an infinity, as it does in `float32`; rounding of finite
results and signed zeros are not modelled. -/
inductive Ext where
  | fin (q : ℚ)
  | inf
  | ninf
  | nan
deriving DecidableEq

/-- A rational result, with overflow. -/
def Ext.ofRat (q : ℚ) : Ext :=
  if (2 : ℚ) ^ 128 ≤ q then Ext.inf
  else if q ≤ -(2 : ℚ) ^ 128 then Ext.ninf
  else Ext.fin q

/-- Addition with the IEEE rules for the special values. -/
def Ext.add : Ext → Ext → Ext
  | Ext.nan, _ => Ext.nan
  | _, Ext.nan => Ext.nan
  | Ext.inf, Ext.ninf => Ext.nan
  | Ext.ninf, Ext.inf => Ext.nan
  | Ext.inf, _ => Ext.inf
  | _, Ext.inf => Ext.inf
  | Ext.ninf, _ => Ext.ninf
  | _, Ext.ninf => Ext.ninf
  | Ext.fin a, Ext.fin b => Ext.ofRat (a + b)

/-- The product of an infinity of sign `pos` with a finite value. -/
def Ext.scaleInf (pos : Bool) (b : ℚ) : Ext :=
  if b = 0 then Ext.nan
  else if (0 < b) = pos then Ext.inf
  else Ext.ninf

/-- Multiplication with the IEEE rules for the special values. -/
def Ext.mul : Ext → Ext → Ext
  | Ext.nan, _ => Ext.nan
  | _, Ext.nan => Ext.nan
  | Ext.fin a, Ext.fin b => Ext.ofRat (a * b)
  | Ext.inf, Ext.fin b => Ext.scaleInf true b
  | Ext.ninf, Ext.fin b => Ext.scaleInf false b
  | Ext.fin a, Ext.inf => Ext.scaleInf true a
  | Ext.fin a, Ext.ninf => Ext.scaleInf false a
  | Ext.inf, Ext.inf => Ext.inf
  | Ext.ninf, Ext.ninf => Ext.inf
  | Ext.inf, Ext.ninf => Ext.ninf
  | Ext.ninf, Ext.inf => Ext.ninf

/-- Division with the IEEE rules for the special values. -/
def Ext.div : Ext → Ext → Ext
  | Ext.nan, _ => Ext.nan
  | _, Ext.nan => Ext.nan
  | Ext.fin a, Ext.fin b =>
    if b = 0 then (if a = 0 then Ext.nan else if 0 < a then Ext.inf else Ext.ninf)
    else Ext.ofRat (a / b)
  | Ext.fin _, Ext.inf => Ext.fin 0
  | Ext.fin _, Ext.ninf => Ext.fin 0
  | Ext.inf, Ext.fin b => if 0 ≤ b then Ext.inf else Ext.ninf
  | Ext.ninf, Ext.fin b => if 0 ≤ b then Ext.ninf else Ext.inf
  | Ext.inf, Ext.inf => Ext.nan
  | Ext.inf, Ext.ninf => Ext.nan
  | Ext.ninf, Ext.inf => Ext.nan
  | Ext.ninf, Ext.ninf => Ext.nan

instance Ext.instZero : Zero Ext := ⟨Ext.fin 0⟩

instance Ext.instAdd : Add Ext := ⟨Ext.add⟩

instance Ext.instMul : Mul Ext := ⟨Ext.mul⟩

instance Ext.instDiv : Div Ext := ⟨Ext.div⟩

/-- The square root on `Ext`: `math.Sqrt` on the special values; on a finite
value the rational square root, which is exact on squares of rationals. -/
def Ext.sqrt : Ext → Ext
  | Ext.fin q => if q < 0 then Ext.nan else Ext.fin (Rat.sqrt q)
  | Ext.inf => Ext.inf
  | Ext.ninf => Ext.nan
  | Ext.nan => Ext.nan

end Reference

/-! ## Vector arithmetic: when the loops are defined -/

section Arithmetic

variable {α : Type}

theorem dotProductLoop_isSome [Add α] [Mul α] (w : List α) :
    ∀ (v : List α) (idx : Nat) (sum : α),
      (dotProductLoop w v idx sum).isSome = true ↔ (v = [] ∨ idx + v.length ≤ w.length) := by
  intro v
  induction v with
  | nil => intro idx sum; simp [dotProductLoop]
  | cons val rest ih =>
    intro idx sum
    unfold dotProductLoop
    cases hx : w[idx]? with
    | none =>
      have : w.length ≤ idx := List.getElem?_eq_none_iff.mp hx
      simp
      omega
    | some x =>
      have hlt : idx < w.length := (List.getElem?_eq_some_iff.mp hx).1
      simp only [ih, List.length_cons]
      constructor
      · rintro (h | h)
        · subst h; right; simp; omega
        · right; omega
      · rintro (h | h)
        · cases h
        · right; omega

theorem dotProduct_isSome [Zero α] [Add α] [Mul α] (v w : List α) :
    (dotProduct v w).isSome = true ↔ v.length ≤ w.length := by
  unfold dotProduct
  rw [dotProductLoop_isSome]
  constructor
  · rintro (h | h)
    · subst h; simp
    · simpa using h
  · intro h; right; simpa using h

/-- When the loop of `minus` stays in range it subtracts componentwise. -/
theorem minusLoop_eq [Sub α] (w : List α) :
    ∀ (v : List α) (idx : Nat), idx + v.length ≤ w.length →
      minusLoop w v idx = some (List.zipWith (· - ·) v (w.drop idx)) := by
  intro v
  induction v with
  | nil => intro idx _; simp [minusLoop]
  | cons val rest ih =>
    intro idx h
    have hlt : idx < w.length := by simp only [List.length_cons] at h; omega
    have hrec := ih (idx + 1) (by simp only [List.length_cons] at h; omega)
    unfold minusLoop
    rw [List.getElem?_eq_getElem hlt]
    simp only [hrec]
    rw [List.drop_eq_getElem_cons hlt, List.zipWith_cons_cons]

theorem minus_eq [Sub α] (v w : List α) (h : v.length ≤ w.length) :
    minus v w = some (List.zipWith (· - ·) v w) := by
  unfold minus
  rw [minusLoop_eq w v 0 (by omega), List.drop_zero]

/-- When the loop of `plus` stays in range it adds componentwise. -/
theorem plusLoop_eq [Add α] (w : List α) :
    ∀ (v : List α) (idx : Nat), idx + v.length ≤ w.length →
      plusLoop w v idx = some (List.zipWith (· + ·) v (w.drop idx)) := by
  intro v
  induction v with
  | nil => intro idx _; simp [plusLoop]
  | cons val rest ih =>
    intro idx h
    have hlt : idx < w.length := by simp only [List.length_cons] at h; omega
    have hrec := ih (idx + 1) (by simp only [List.length_cons] at h; omega)
    unfold plusLoop
    rw [List.getElem?_eq_getElem hlt]
    simp only [hrec]
    rw [List.drop_eq_getElem_cons hlt, List.zipWith_cons_cons]

theorem plus_eq [Add α] (v w : List α) (h : v.length ≤ w.length) :
    plus v w = some (List.zipWith (· + ·) v w) := by
  unfold plus
  rw [plusLoop_eq w v 0 (by omega), List.drop_zero]

/-- The query vector that `Analogy` builds from three vectors of one length:
componentwise `(v2 - v1) + v3`, of that same length. -/
theorem analogy_query [Sub α] [Add α] (v1 v2 v3 : List α) (h12 : v2.length = v1.length)
    (h13 : v3.length = v1.length) :
    ∃ d, minus v2 v1 = some d
      ∧ plus d v3 = some (List.zipWith (· + ·) (List.zipWith (· - ·) v2 v1) v3)
      ∧ (List.zipWith (· + ·) (List.zipWith (· - ·) v2 v1) v3).length = v1.length := by
  refine ⟨_, minus_eq v2 v1 (by omega), plus_eq _ v3 (by simp; omega), ?_⟩
  simp
  omega

end Arithmetic

/-! ## Binary search -/

section BinarySearch

variable {α : Type}

/-- On a predicate that is defined below `n` and monotone there, the loop of
`sort.Search` terminates within `j - i` iterations and returns the boundary
between the `false` and the `true` indices. -/
theorem searchLoop_least (f : Nat → Option Bool) (g : Nat → Bool) (n : Nat)
    (hf : ∀ h, h < n → f h = some (g h))
    (hmono : ∀ a b, a ≤ b → b < n → g a = true → g b = true) :
    ∀ (fuel i j : Nat), i ≤ j → j ≤ n → j - i ≤ fuel →
      (∀ a, a < i → g a = false) → (∀ b, j ≤ b → b < n → g b = true) →
      ∃ p, searchLoop f fuel i j = some p ∧ p ≤ n ∧
        (∀ a, a < p → g a = false) ∧ (∀ b, p ≤ b → b < n → g b = true) := by
  intro fuel
  induction fuel with
  | zero =>
    intro i j hij hjn hfuel hlo hhi
    have hEq : i = j := by omega
    subst hEq
    exact ⟨i, by simp [searchLoop], hjn, hlo, hhi⟩
  | succ fuel ih =>
    intro i j hij hjn hfuel hlo hhi
    unfold searchLoop
    by_cases hlt : i < j
    · have hh : (i + j) / 2 < j := by omega
      have hh2 : i ≤ (i + j) / 2 := by omega
      simp only [hlt, if_true]
      rw [hf _ (by omega)]
      cases hg : g ((i + j) / 2) with
      | false =>
        simp only
        apply ih _ _ (by omega) hjn (by omega) _ hhi
        intro a ha
        by_contra hc
        have hta : g a = true := by simpa using hc
        have htm := hmono a ((i + j) / 2) (by omega) (by omega) hta
        simp [hg] at htm
      | true =>
        simp only
        apply ih _ _ hh2 (by omega) (by omega) hlo
        intro b hb hbn
        exact hmono _ b hb hbn hg
    · have hEq : i = j := by omega
      subst hEq
      exact ⟨i, by simp, hjn, hlo, hhi⟩

/-- The search of `distance` on a buffer sorted non-increasing: it returns
the first position whose score is at most `d`. -/
theorem Search_buffer [LinearOrder α] (results : List (WordDistance α)) (d : α)
    (hs : NonIncreasing results) :
    ∃ p, Search results.length (searchPred results d) = some p ∧ p ≤ results.length ∧
      (∀ i x, i < p → results[i]? = some x → ¬ x.Distance ≤ d) ∧
      (∀ i x, p ≤ i → results[i]? = some x → x.Distance ≤ d) := by
  let g : Nat → Bool := fun i =>
    match results[i]? with
    | some r => decide (r.Distance ≤ d)
    | none => true
  have hf : ∀ h, h < results.length → searchPred results d h = some (g h) := by
    intro h hh
    simp [searchPred, g, List.getElem?_eq_getElem hh]
  have hmono : ∀ a b, a ≤ b → b < results.length → g a = true → g b = true := by
    intro a b hab hb hga
    have ha : a < results.length := by omega
    simp only [g, List.getElem?_eq_getElem ha, decide_eq_true_eq] at hga
    simp only [g, List.getElem?_eq_getElem hb, decide_eq_true_eq]
    rcases Nat.lt_or_ge a b with hlt | hge
    · exact le_trans (hs a b _ _ hlt (List.getElem?_eq_getElem ha)
        (List.getElem?_eq_getElem hb)) hga
    · have hEq : a = b := by omega
      subst hEq
      exact hga
  obtain ⟨p, hp, hpn, hlo, hhi⟩ := searchLoop_least (searchPred results d) g results.length
    hf hmono results.length 0 results.length (Nat.zero_le _) (Nat.le_refl _) (by omega)
    (by intro a ha; omega) (by intro b hb hbn; omega)
  refine ⟨p, hp, hpn, ?_, ?_⟩
  · intro i x hi hx
    have h1 := hlo i hi
    simp only [g, hx, decide_eq_false_iff_not] at h1
    exact h1
  · intro i x hi hx
    have hil : i < results.length := (List.getElem?_eq_some_iff.mp hx).1
    have h1 := hhi i hi hil
    simp only [g, hx, decide_eq_true_eq] at h1
    exact h1

/-- Inserting at a boundary position is the ordered insertion. -/
theorem orderedInsert_at {β : Type} (r : β → β → Prop) [DecidableRel r] (v : β) :
    ∀ (l : List β) (p : Nat), p ≤ l.length →
      (∀ i x, i < p → l[i]? = some x → ¬ r v x) →
      (∀ i x, p ≤ i → l[i]? = some x → r v x) →
      l.orderedInsert r v = l.take p ++ v :: l.drop p := by
  intro l
  induction l with
  | nil => intro p hp _ _; simp
  | cons b l ih =>
    intro p hp hlo hhi
    cases p with
    | zero =>
      have hb : r v b := hhi 0 b (Nat.le_refl _) (by simp)
      simp [List.orderedInsert, hb]
    | succ p =>
      have hb : ¬ r v b := hlo 0 b (Nat.succ_pos _) (by simp)
      have hrec := ih p (by simpa using hp)
        (fun i x hi hx => hlo (i + 1) x (by omega) (by simpa using hx))
        (fun i x hi hx => hhi (i + 1) x (by omega) (by simpa using hx))
      simp [List.orderedInsert, hb, hrec]

end BinarySearch

/-! ## Bounded insertion -/

section Insertion

variable {α : Type}

/-- Copying a source that is exactly as long as the destination replaces it. -/
theorem copy_same_length {β : Type} (dst src : List β) (h : src.length = dst.length) :
    copy dst src = src := by
  unfold copy
  rw [← h, List.take_length, List.drop_of_length_le (by omega), List.append_nil]

theorem set_after_append {β : Type} (A B : List β) (y v : β) :
    (A ++ [y] ++ B).set A.length v = A ++ v :: B := by
  induction A with
  | nil => simp
  | cons a A ih => simp

theorem shift_grown_split {β : Type} (A B : List β) (z v : β) :
    ((A ++ B ++ [z]).take (A.length + 1) ++
        copy ((A ++ B ++ [z]).drop (A.length + 1))
          (((A ++ B ++ [z]).take ((A ++ B ++ [z]).length - 1)).drop A.length)).set A.length v
      = A ++ v :: B := by
  have t1 : (A ++ B ++ [z]).take ((A ++ B ++ [z]).length - 1) = A ++ B := by
    rw [show (A ++ B ++ [z]).length - 1 = (A ++ B).length by simp]
    exact List.take_left _ _
  have t2 : (A ++ B).drop A.length = B := List.drop_left _ _
  have t3 : B.length = ((A ++ B ++ [z]).drop (A.length + 1)).length := by
    simp only [List.length_drop, List.length_append, List.length_singleton]
    omega
  have t4 : ∃ y, (A ++ B ++ [z]).take (A.length + 1) = A ++ [y] := by
    cases B with
    | nil => exact ⟨z, by simp⟩
    | cons b B1 => exact ⟨b, by simp [List.take_append_eq_append_take]⟩
  obtain ⟨y, hy⟩ := t4
  rw [t1, t2, copy_same_length _ _ t3, hy]
  exact set_after_append A B y v

theorem shift_full_split {β : Type} (A B : List β) (b v : β) :
    ((A ++ b :: B).take (A.length + 1) ++
        copy ((A ++ b :: B).drop (A.length + 1))
          (((A ++ b :: B).take ((A ++ b :: B).length - 1)).drop A.length)).set A.length v
      = (A ++ v :: b :: B).take (A ++ b :: B).length := by
  have t0 : (A ++ b :: B).length - 1 = A.length + B.length := by simp
  have t1 : ((A ++ b :: B).take (A.length + B.length)).drop A.length
      = (b :: B).take B.length := by
    rw [List.take_append, List.drop_left]
  have t3 : ((b :: B).take B.length).length = ((A ++ b :: B).drop (A.length + 1)).length := by
    simp only [List.length_drop, List.length_append, List.length_take, List.length_cons]
    omega
  have t4 : (A ++ b :: B).take (A.length + 1) = A ++ [b] := by
    simp [List.take_append_eq_append_take]
  have t5 : (A ++ v :: b :: B).take (A ++ b :: B).length = A ++ v :: (b :: B).take B.length := by
    rw [show (A ++ b :: B).length = A.length + (B.length + 1) by simp, List.take_append]
    rfl
  rw [t0, t1, copy_same_length _ _ t3, t4, t5]
  exact set_after_append A _ b v

/-- What `insertWithLimit` returns when called as `distance` calls it: the
value is placed at `index`, lower-ranked entries move down by one, and only
the first `limit` entries are kept. -/
theorem insertWithLimit_eq [Zero α] (s : List (WordDistance α)) (limit : Int) (ip : Nat)
    (v : WordDistance α) (hlen : (s.length : Int) ≤ limit) (hip : ip ≤ s.length)
    (hlt : (ip : Int) < limit) :
    insertWithLimit s limit (ip : Int) v
      = some ((s.take ip ++ v :: s.drop ip).take limit.toNat) := by
  obtain ⟨A, B, hs, hA⟩ : ∃ A B, s = A ++ B ∧ A.length = ip :=
    ⟨s.take ip, s.drop ip, (List.take_append_drop ip s).symm, by simp; omega⟩
  subst hA
  subst hs
  unfold insertWithLimit
  by_cases hgrow : ((A ++ B).length : Int) < limit
  · have hidx : (0 : Int) ≤ (A.length : Int)
        ∧ (A.length : Int) < ((A ++ B ++ [(⟨"", 0⟩ : WordDistance α)]).length : Int) := by
      constructor
      · omega
      · simp only [List.length_append, List.length_singleton]; omega
    simp only [hgrow, if_true, hidx, and_self, Int.toNat_ofNat]
    rw [shift_grown_split, List.take_left, List.drop_left, List.take_of_length_le]
    simp only [List.length_append, List.length_cons] at hgrow ⊢
    omega
  · have hfull : ((A ++ B).length : Int) = limit := by omega
    have hne : A.length < (A ++ B).length := by omega
    obtain ⟨b, B1, hB⟩ : ∃ b B1, B = b :: B1 := by
      cases B with
      | nil => simp at hne
      | cons b B1 => exact ⟨b, B1, rfl⟩
    subst hB
    have hidx : (0 : Int) ≤ (A.length : Int)
        ∧ (A.length : Int) < ((A ++ b :: B1).length : Int) := by
      constructor <;> omega
    simp only [hgrow, if_false, hidx, and_self, if_true, Int.toNat_ofNat]
    rw [shift_full_split, List.take_left, List.drop_left, ← hfull, Int.toNat_ofNat]

end Insertion

/-! ## Map lookup -/

section Lookup

variable {α : Type}

theorem lookup_eq_none_iff_not_key (vecs : Table α) (w : String) :
    vecs.lookup w = none ↔ w ∉ keys vecs := by
  induction vecs with
  | nil => simp [keys]
  | cons e rest ih =>
    obtain ⟨k, v⟩ := e
    by_cases h : w = k
    · subst h; simp [keys, List.lookup]
    · have hb : (w == k) = false := by simpa using h
      simp only [List.lookup, hb, ih]
      simp [keys, h]

theorem lookup_mem (vecs : Table α) (w : String) (v : List α)
    (h : vecs.lookup w = some v) : (w, v) ∈ vecs := by
  induction vecs with
  | nil => simp at h
  | cons e rest ih =>
    obtain ⟨k, u⟩ := e
    by_cases hk : w = k
    · subst hk
      simp only [List.lookup, beq_self_eq_true, Option.some.injEq] at h
      subst h
      exact List.mem_cons_self _ _
    · have hb : (w == k) = false := by simpa using hk
      simp only [List.lookup, hb] at h
      exact List.mem_cons_of_mem _ (ih h)

theorem lookup_of_mem (vecs : Table α) (hn : NodupKeys vecs) (w : String) (v : List α)
    (h : (w, v) ∈ vecs) : vecs.lookup w = some v := by
  induction vecs with
  | nil => simp at h
  | cons e rest ih =>
    obtain ⟨k, u⟩ := e
    have hn2 : k ∉ keys rest ∧ NodupKeys rest := by
      simpa [NodupKeys, keys] using hn
    rcases List.mem_cons.mp h with hEq | hIn
    · cases hEq
      simp [List.lookup]
    · have hk : w ≠ k := by
        intro hwk
        subst hwk
        exact hn2.1 (List.mem_map.mpr ⟨(w, v), hIn, rfl⟩)
      have hb : (w == k) = false := by simpa using hk
      simp only [List.lookup, hb]
      exact ih hn2.2 hIn

theorem lookup_of_key (vecs : Table α) (w : String) (h : w ∈ keys vecs) :
    ∃ v, vecs.lookup w = some v := by
  cases hl : vecs.lookup w with
  | none => exact absurd h ((lookup_eq_none_iff_not_key vecs w).mp hl)
  | some v => exact ⟨v, rfl⟩

/-- In a table of equal-length vectors, a vector of the table fits every
entry. -/
theorem queryFits_of_equalLength (vecs : Table α) (heq : EqualLength vecs) (w : String)
    (v : List α) (hv : (w, v) ∈ vecs) (skips : List String) : QueryFits v skips vecs := by
  intro e he _
  exact le_of_eq (heq (w, v) hv e he)

end Lookup

/-! ## The scored candidates -/

section Candidates

variable {α : Type} [Zero α] [Add α] [Mul α]

theorem candidates_isSome (vec : List α) (skips : List String) (vecs : Table α) :
    (candidates vec skips vecs).isSome = true ↔ QueryFits vec skips vecs := by
  induction vecs with
  | nil => simp [candidates, QueryFits]
  | cons e rest ih =>
    unfold candidates
    have hq : QueryFits vec skips (e :: rest)
        ↔ (e.1 ∉ skips → vec.length ≤ e.2.length) ∧ QueryFits vec skips rest := by
      simp [QueryFits]
    rw [hq]
    by_cases hskip : e.1 ∈ skips
    · simp [hskip, ih]
    · simp only [hskip, if_false, not_false_eq_true, true_implies]
      cases hd : dotProduct vec e.2 with
      | none =>
        have hn : ¬ vec.length ≤ e.2.length := by
          rw [← dotProduct_isSome, hd]; simp
        simp [hn]
      | some dist =>
        have hy : vec.length ≤ e.2.length := by
          rw [← dotProduct_isSome, hd]; simp
        simp only [hy, true_and, ← ih]
        cases candidates vec skips rest <;> simp

theorem candidates_words (vec : List α) (skips : List String) :
    ∀ (vecs : Table α) (cs : List (WordDistance α)),
      candidates vec skips vecs = some cs → words cs = keys (eligible skips vecs) := by
  intro vecs
  induction vecs with
  | nil => intro cs h; simp [candidates] at h; subst h; rfl
  | cons e rest ih =>
    intro cs h
    unfold candidates at h
    by_cases hskip : e.1 ∈ skips
    · simp only [hskip, if_true] at h
      simpa [eligible, List.filter_cons, hskip] using ih cs h
    · simp only [hskip, if_false] at h
      cases hd : dotProduct vec e.2 with
      | none => simp [hd] at h
      | some dist =>
        cases hc : candidates vec skips rest with
        | none => simp [hd, hc] at h
        | some cs1 =>
          simp only [hd, hc, Option.some.injEq] at h
          subst h
          have hrec := ih cs1 hc
          simp only [words, keys, eligible] at hrec ⊢
          simp [List.filter_cons, hskip, hrec]

theorem candidates_mem (vec : List α) (skips : List String) :
    ∀ (vecs : Table α) (cs : List (WordDistance α)),
      candidates vec skips vecs = some cs → ∀ c ∈ cs,
        ∃ e ∈ vecs, e.1 ∉ skips ∧ c.Word = e.1 ∧ dotProduct vec e.2 = some c.Distance := by
  intro vecs
  induction vecs with
  | nil => intro cs h c hc; simp [candidates] at h; subst h; simp at hc
  | cons e rest ih =>
    intro cs h c hc
    unfold candidates at h
    by_cases hskip : e.1 ∈ skips
    · simp only [hskip, if_true] at h
      obtain ⟨e1, he1, hrest⟩ := ih cs h c hc
      exact ⟨e1, List.mem_cons_of_mem _ he1, hrest⟩
    · simp only [hskip, if_false] at h
      cases hd : dotProduct vec e.2 with
      | none => simp [hd] at h
      | some dist =>
        cases hcs : candidates vec skips rest with
        | none => simp [hd, hcs] at h
        | some cs1 =>
          simp only [hd, hcs, Option.some.injEq] at h
          subst h
          rcases List.mem_cons.mp hc with hEq | hIn
          · subst hEq
            exact ⟨e, List.mem_cons_self _ _, hskip, rfl, hd⟩
          · obtain ⟨e1, he1, hrest⟩ := ih cs1 hcs c hIn
            exact ⟨e1, List.mem_cons_of_mem _ he1, hrest⟩

end Candidates

/-! ## One step of the scan -/

section Ranking

variable {α : Type} [LinearOrder α]

theorem ranks_total : IsTotal (WordDistance α) (fun a b => b.Distance ≤ a.Distance) :=
  ⟨fun a b => le_total b.Distance a.Distance⟩

theorem ranks_trans : IsTrans (WordDistance α) (fun a b => b.Distance ≤ a.Distance) :=
  ⟨fun _ _ _ hab hbc => le_trans hbc hab⟩

theorem nonIncreasing_iff_sorted (r : List (WordDistance α)) :
    NonIncreasing r ↔ r.Sorted (fun a b => b.Distance ≤ a.Distance) := by
  unfold NonIncreasing List.Sorted
  rw [List.pairwise_iff_getElem]
  constructor
  · intro h i j hi hj hij
    exact h i j _ _ hij (List.getElem?_eq_getElem hi) (List.getElem?_eq_getElem hj)
  · intro h i j a b hij ha hb
    obtain ⟨hi, rfl⟩ := List.getElem?_eq_some_iff.mp ha
    obtain ⟨hj, rfl⟩ := List.getElem?_eq_some_iff.mp hb
    exact h i j hi hj hij

theorem nonIncreasing_nil : NonIncreasing ([] : List (WordDistance α)) := by
  intro i j a b _ ha
  simp at ha

theorem boundedInsert_nonIncreasing (k : Nat) (buf : List (WordDistance α))
    (v : WordDistance α) (h : NonIncreasing buf) : NonIncreasing (boundedInsert k buf v) := by
  rw [nonIncreasing_iff_sorted] at h ⊢
  haveI := ranks_total (α := α)
  haveI := ranks_trans (α := α)
  exact (h.orderedInsert v buf).sublist (List.take_sublist _ _)

theorem boundedInsert_length (k : Nat) (buf : List (WordDistance α)) (v : WordDistance α) :
    (boundedInsert k buf v).length = min k (buf.length + 1) := by
  simp [boundedInsert, List.orderedInsert_length]

theorem boundedInsert_subperm (k : Nat) (buf : List (WordDistance α)) (v : WordDistance α) :
    List.Subperm (boundedInsert k buf v) (v :: buf) :=
  (List.take_sublist _ _).subperm.trans (List.perm_orderedInsert _ v buf).subperm

theorem fold_nonIncreasing (k : Nat) (cs : List (WordDistance α)) :
    ∀ buf : List (WordDistance α), NonIncreasing buf →
      NonIncreasing (cs.foldl (boundedInsert k) buf) := by
  induction cs with
  | nil => intro buf h; exact h
  | cons c cs ih => intro buf h; exact ih _ (boundedInsert_nonIncreasing k buf c h)

theorem fold_length (k : Nat) (cs : List (WordDistance α)) :
    ∀ buf : List (WordDistance α), buf.length ≤ k →
      (cs.foldl (boundedInsert k) buf).length = min k (buf.length + cs.length) := by
  induction cs with
  | nil => intro buf h; simp; omega
  | cons c cs ih =>
    intro buf h
    rw [List.foldl_cons, ih _ (by rw [boundedInsert_length]; omega), boundedInsert_length,
      List.length_cons]
    omega

theorem fold_subperm (k : Nat) (cs : List (WordDistance α)) :
    ∀ buf : List (WordDistance α),
      List.Subperm (cs.foldl (boundedInsert k) buf) (buf ++ cs) := by
  induction cs with
  | nil => intro buf; simpa using List.Subperm.refl buf
  | cons c cs ih =>
    intro buf
    rw [List.foldl_cons]
    refine (ih _).trans ?_
    have h1 : List.Subperm (boundedInsert k buf c ++ cs) ((c :: buf) ++ cs) :=
      (List.subperm_append_right cs).mpr (boundedInsert_subperm k buf c)
    refine h1.trans (List.Perm.subperm ?_)
    simpa using (@List.perm_middle _ c buf cs).symm

variable [Zero α] [Add α] [Mul α]

/-- One iteration of the scan, on a sorted buffer of at most `limit` entries,
is the bounded ordered insertion of the scored entry. -/
theorem distanceStep_eq (vec : List α) (skips : List String) (limit : Int)
    (buf : List (WordDistance α)) (entry : String × List α)
    (hs : NonIncreasing buf) (hlen : buf.length ≤ limit.toNat) :
    distanceStep vec skips limit buf entry =
      if entry.1 ∈ skips then some buf
      else
        match dotProduct vec entry.2 with
        | none => none
        | some dist => some (boundedInsert limit.toNat buf ⟨entry.1, dist⟩) := by
  unfold distanceStep
  by_cases hskip : entry.1 ∈ skips
  · simp [hskip]
  · simp only [hskip, if_false]
    cases hd : dotProduct vec entry.2 with
    | none => rfl
    | some dist =>
      obtain ⟨p, hp, hpn, hlo, hhi⟩ := Search_buffer buf dist hs
      simp only [hp]
      have hins : buf.orderedInsert (fun a b => b.Distance ≤ a.Distance) ⟨entry.1, dist⟩
          = buf.take p ++ ⟨entry.1, dist⟩ :: buf.drop p :=
        orderedInsert_at _ _ buf p hpn hlo hhi
      by_cases hlt : (p : Int) < limit
      · have hlen2 : (buf.length : Int) ≤ limit := by omega
        rw [if_pos hlt, insertWithLimit_eq buf limit p _ hlen2 hpn hlt]
        simp only [boundedInsert, hins]
      · rw [if_neg hlt]
        have hk : limit.toNat ≤ p := by omega
        have hbuf : buf.length = p := by omega
        simp only [boundedInsert, hins]
        rw [List.take_append_of_le_length (by simp; omega), List.take_take,
          List.take_of_length_le (by omega)]

/-! ## The whole scan -/

/-- The scan computes, for every starting buffer that is sorted and within
the limit, the bounded ordered insertion of all scored candidates in
enumeration order; it panics exactly when a candidate score is undefined. -/
theorem distanceLoop_eq (vec : List α) (skips : List String) (limit : Int)
    (vecs : Table α) :
    ∀ buf : List (WordDistance α), NonIncreasing buf → buf.length ≤ limit.toNat →
      distanceLoop vec skips limit vecs buf =
        match candidates vec skips vecs with
        | none => none
        | some cs => some (cs.foldl (boundedInsert limit.toNat) buf) := by
  induction vecs with
  | nil => intro buf _ _; simp [distanceLoop, candidates]
  | cons e rest ih =>
    intro buf hs hlen
    unfold distanceLoop candidates
    rw [distanceStep_eq vec skips limit buf e hs hlen]
    by_cases hskip : e.1 ∈ skips
    · simp only [hskip, if_true]
      exact ih buf hs hlen
    · simp only [hskip, if_false]
      cases hd : dotProduct vec e.2 with
      | none => rfl
      | some dist =>
        simp only
        rw [ih _ (boundedInsert_nonIncreasing _ buf _ hs)
          (by rw [boundedInsert_length]; omega)]
        cases candidates vec skips rest with
        | none => rfl
        | some cs => rfl

/-- The value of `distance` in terms of the scored candidates. -/
theorem distance_eq (vecs : Table α) (vec : List α) (skips : List String) (limit : Int) :
    distance vecs vec skips limit =
      match candidates vec skips vecs with
      | none => none
      | some cs => some ⟨some (cs.foldl (boundedInsert limit.toNat) []), none⟩ := by
  unfold distance
  rw [distanceLoop_eq vec skips limit vecs [] nonIncreasing_nil (by simp)]
  cases candidates vec skips vecs <;> rfl

end Ranking

/-! ## Bounded insertion against full sorting -/

section FullSort

variable {α : Type} [LinearOrder α]

/-- Truncating before an ordered insertion does not change the first `k`
entries of the outcome. -/
theorem take_orderedInsert_take (d : α) :
    ∀ (L : List α) (k : Nat),
      ((L.take k).orderedInsert (· ≥ ·) d).take k = (L.orderedInsert (· ≥ ·) d).take k := by
  intro L
  induction L with
  | nil => intro k; simp
  | cons b L ih =>
    intro k
    cases k with
    | zero => simp
    | succ k =>
      by_cases h : d ≥ b
      · simp only [List.take_succ_cons, List.orderedInsert, h, if_true]
        cases k with
        | zero => simp
        | succ k => simp [List.take_take]
      · simp only [List.take_succ_cons, List.orderedInsert, h, if_false, ih k]

theorem fold_take (k : Nat) (ds : List α) :
    ∀ L : List α,
      ds.foldl (fun S d => (S.orderedInsert (· ≥ ·) d).take k) (L.take k)
        = (ds.foldl (fun S d => S.orderedInsert (· ≥ ·) d) L).take k := by
  induction ds with
  | nil => intro L; rfl
  | cons d ds ih =>
    intro L
    rw [List.foldl_cons, List.foldl_cons, take_orderedInsert_take, ih]

theorem fold_orderedInsert_sorted (ds : List α) :
    ∀ L : List α, L.Sorted (· ≥ ·) →
      (ds.foldl (fun S d => S.orderedInsert (· ≥ ·) d) L).Sorted (· ≥ ·) := by
  induction ds with
  | nil => intro L h; exact h
  | cons d ds ih => intro L h; exact ih _ (h.orderedInsert d L)

theorem fold_orderedInsert_perm (ds : List α) :
    ∀ L : List α, (ds.foldl (fun S d => S.orderedInsert (· ≥ ·) d) L).Perm (L ++ ds) := by
  induction ds with
  | nil => intro L; simp
  | cons d ds ih =>
    intro L
    rw [List.foldl_cons]
    refine (ih _).trans ?_
    refine ((List.perm_orderedInsert _ d L).append_right ds).trans ?_
    simpa using (@List.perm_middle _ d L ds).symm

/-- Inserting the scores one by one, in any order, yields the sorted list. -/
theorem fold_orderedInsert_eq_sort (ds : List α) :
    ds.foldl (fun S d => S.orderedInsert (· ≥ ·) d) [] = ds.insertionSort (· ≥ ·) := by
  apply List.eq_of_perm_of_sorted (r := (· ≥ ·))
  · exact ((fold_orderedInsert_perm ds []).trans (by simp)).trans
      (List.perm_insertionSort _ ds).symm
  · exact fold_orderedInsert_sorted ds [] List.sorted_nil
  · exact List.sorted_insertionSort _ ds

theorem scores_boundedInsert (k : Nat) (buf : List (WordDistance α)) (v : WordDistance α) :
    scores (boundedInsert k buf v)
      = ((scores buf).orderedInsert (· ≥ ·) v.Distance).take k := by
  unfold scores boundedInsert
  rw [List.map_take, List.map_orderedInsert _ (· ≥ ·)]
  · intro a _
    exact Iff.rfl
  · intro a _
    exact Iff.rfl

theorem scores_fold (k : Nat) (cs : List (WordDistance α)) :
    ∀ buf : List (WordDistance α),
      scores (cs.foldl (boundedInsert k) buf)
        = (scores cs).foldl (fun S d => (S.orderedInsert (· ≥ ·) d).take k) (scores buf) := by
  induction cs with
  | nil => intro buf; rfl
  | cons c cs ih =>
    intro buf
    rw [List.foldl_cons, ih, scores_boundedInsert]
    rfl

/-- The scores kept by the bounded insertion are the first `k` of the fully
sorted scores. -/
theorem scores_fold_eq_sort (k : Nat) (cs : List (WordDistance α)) :
    scores (cs.foldl (boundedInsert k) []) = ((scores cs).insertionSort (· ≥ ·)).take k := by
  rw [scores_fold, ← fold_orderedInsert_eq_sort]
  have h := fold_take k (scores cs) []
  simpa [scores] using h

end FullSort

/-! ## When the search returns -/

section Returns

variable {α : Type} [LinearOrder α] [Zero α] [Add α] [Mul α]

/-- Function `distance` returns exactly when every dot product it computes is
defined, that is when the query is no longer than any vector it is
compared with. -/
theorem distance_isSome (vecs : Table α) (vec : List α) (skips : List String) (limit : Int) :
    (distance vecs vec skips limit).isSome = true ↔ QueryFits vec skips vecs := by
  rw [distance_eq, ← candidates_isSome]
  cases candidates vec skips vecs <;> simp

theorem distance_of_fits (vecs : Table α) (vec : List α) (skips : List String) (limit : Int)
    (hfit : QueryFits vec skips vecs) :
    ∃ cs, candidates vec skips vecs = some cs ∧
      distance vecs vec skips limit
        = some ⟨some (cs.foldl (boundedInsert limit.toNat) []), none⟩ := by
  have h := (candidates_isSome vec skips vecs).mpr hfit
  obtain ⟨cs, hcs⟩ := Option.isSome_iff_exists.mp h
  exact ⟨cs, hcs, by rw [distance_eq, hcs]⟩

theorem distance_returned (vecs : Table α) (vec : List α) (skips : List String) (limit : Int)
    (ret : SearchReturn α) (h : distance vecs vec skips limit = some ret) :
    ∃ cs, candidates vec skips vecs = some cs ∧
      ret = ⟨some (cs.foldl (boundedInsert limit.toNat) []), none⟩ := by
  rw [distance_eq] at h
  cases hcs : candidates vec skips vecs with
  | none => simp [hcs] at h
  | some cs =>
    simp only [hcs, Option.some.injEq] at h
    exact ⟨cs, rfl, h.symm⟩

/-- The scan of a concatenation is the scan of the first part followed by
the scan of the second part: the buffer after `n` steps of the scan of
`vecs` is the outcome of the scan of `vecs.take n`. -/
theorem distanceLoop_append (vec : List α) (skips : List String) (limit : Int)
    (xs ys : Table α) :
    ∀ buf : List (WordDistance α),
      distanceLoop vec skips limit (xs ++ ys) buf =
        match distanceLoop vec skips limit xs buf with
        | none => none
        | some mid => distanceLoop vec skips limit ys mid := by
  induction xs with
  | nil => intro buf; rfl
  | cons e xs ih =>
    intro buf
    simp only [List.cons_append, distanceLoop]
    cases distanceStep vec skips limit buf e with
    | none => rfl
    | some b => exact ih b

theorem distanceLoop_sorted (vec : List α) (skips : List String) (limit : Int)
    (vecs : Table α) (buf : List (WordDistance α))
    (h : distanceLoop vec skips limit vecs [] = some buf) : NonIncreasing buf := by
  rw [distanceLoop_eq vec skips limit vecs [] nonIncreasing_nil (by simp)] at h
  cases hcs : candidates vec skips vecs with
  | none => simp [hcs] at h
  | some cs =>
    simp only [hcs, Option.some.injEq] at h
    subst h
    exact fold_nonIncreasing _ cs [] nonIncreasing_nil

/-- Every returned result is a scored entry of the table that is not
skipped. -/
theorem distance_mem (vecs : Table α) (vec : List α) (skips : List String) (limit : Int)
    (ret : SearchReturn α) (r : List (WordDistance α))
    (h : distance vecs vec skips limit = some ret) (hr : ret.results = some r) :
    ∀ x ∈ r, ∃ e ∈ vecs, e.1 ∉ skips ∧ x.Word = e.1
      ∧ dotProduct vec e.2 = some x.Distance := by
  obtain ⟨cs, hcs, hret⟩ := distance_returned vecs vec skips limit ret h
  subst hret
  simp only [Option.some.injEq] at hr
  subst hr
  intro x hx
  have hsub := (fold_subperm limit.toNat cs []).subset hx
  exact candidates_mem vec skips vecs cs hcs x (by simpa using hsub)

theorem distance_err (vecs : Table α) (vec : List α) (skips : List String) (limit : Int)
    (ret : SearchReturn α) (h : distance vecs vec skips limit = some ret) :
    ret.err = none := by
  obtain ⟨cs, _, hret⟩ := distance_returned vecs vec skips limit ret h
  subst hret
  rfl

/-- With a limit that is not positive the scan never inserts. -/
theorem distance_nonpositive (vecs : Table α) (vec : List α) (skips : List String)
    (limit : Int) (hk : limit ≤ 0) (hfit : QueryFits vec skips vecs) :
    distance vecs vec skips limit = some ⟨some [], none⟩ := by
  obtain ⟨cs, _, hd⟩ := distance_of_fits vecs vec skips limit hfit
  rw [hd]
  have hz : limit.toNat = 0 := by omega
  have hlen := fold_length limit.toNat cs [] (by simp)
  rw [hz] at hlen
  have hnil : cs.foldl (boundedInsert limit.toNat) [] = [] := by
    apply List.eq_nil_of_length_eq_zero
    rw [hz, hlen]
    simp
  rw [hnil]

theorem distance_nonpositive_returned (vecs : Table α) (vec : List α)
    (skips : List String) (limit : Int) (hk : limit ≤ 0) (ret : SearchReturn α)
    (h : distance vecs vec skips limit = some ret) : ret = ⟨some [], none⟩ := by
  obtain ⟨cs, _, hret⟩ := distance_returned vecs vec skips limit ret h
  have hz : limit.toNat = 0 := by omega
  have hlen := fold_length limit.toNat cs [] (by simp)
  rw [hz] at hlen
  have hnil : cs.foldl (boundedInsert limit.toNat) [] = [] := by
    apply List.eq_nil_of_length_eq_zero
    rw [hz, hlen]
    simp
  rw [hret, hnil]

theorem Distance_of_lookup (vecs : Table α) (word : String) (limit : Int) (v : List α)
    (h : vecs.lookup word = some v) :
    Distance vecs word limit = distance vecs v [word] limit := by
  simp [Distance, h]

/-- Function `Analogy` either reports an unknown word or returns what
`distance` returns for some query vector and the three words as skip set. -/
theorem Analogy_returned [Sub α] (vecs : Table α) (w1 w2 w3 : String) (limit : Int)
    (ret : SearchReturn α) (h : Analogy vecs w1 w2 w3 limit = some ret) :
    (ret.results = none ∧ ∃ m, ret.err = some m)
      ∨ ∃ q, distance vecs q [w1, w2, w3] limit = some ret := by
  unfold Analogy at h
  cases h1 : vecs.lookup w1 with
  | none =>
    simp only [h1, Option.some.injEq] at h
    subst h
    exact Or.inl ⟨rfl, _, rfl⟩
  | some v1 =>
    cases h2 : vecs.lookup w2 with
    | none =>
      simp only [h1, h2, Option.some.injEq] at h
      subst h
      exact Or.inl ⟨rfl, _, rfl⟩
    | some v2 =>
      cases h3 : vecs.lookup w3 with
      | none =>
        simp only [h1, h2, h3, Option.some.injEq] at h
        subst h
        exact Or.inl ⟨rfl, _, rfl⟩
      | some v3 =>
        cases hm : minus v2 v1 with
        | none => simp [h1, h2, h3, hm] at h
        | some d =>
          cases hp : plus d v3 with
          | none => simp [h1, h2, h3, hm, hp] at h
          | some q =>
            simp only [h1, h2, h3, hm, hp] at h
            exact Or.inr ⟨q, h⟩

/-- With all three words in the table, `Analogy` is `distance` on the query
built by `plus(minus(v2, v1), v3)`. -/
theorem Analogy_of_lookup [Sub α] (vecs : Table α) (w1 w2 w3 : String) (limit : Int)
    (v1 v2 v3 : List α) (h1 : vecs.lookup w1 = some v1) (h2 : vecs.lookup w2 = some v2)
    (h3 : vecs.lookup w3 = some v3) :
    Analogy vecs w1 w2 w3 limit =
      match minus v2 v1 with
      | none => none
      | some d =>
        match plus d v3 with
        | none => none
        | some v4 => distance vecs v4 [w1, w2, w3] limit := by
  simp only [Analogy, h1, h2, h3]

/-- On a table of equal-length vectors, with all three words in the table,
`Analogy` is `distance` on the componentwise query `(v2 - v1) + v3`. -/
theorem Analogy_of_equalLength [Sub α] (vecs : Table α) (heq : EqualLength vecs)
    (w1 w2 w3 : String) (limit : Int) (v1 v2 v3 : List α)
    (h1 : vecs.lookup w1 = some v1) (h2 : vecs.lookup w2 = some v2)
    (h3 : vecs.lookup w3 = some v3) :
    Analogy vecs w1 w2 w3 limit
        = distance vecs (List.zipWith (· + ·) (List.zipWith (· - ·) v2 v1) v3)
            [w1, w2, w3] limit
      ∧ QueryFits (List.zipWith (· + ·) (List.zipWith (· - ·) v2 v1) v3)
          [w1, w2, w3] vecs := by
  have m1 := lookup_mem vecs w1 v1 h1
  have m2 := lookup_mem vecs w2 v2 h2
  have m3 := lookup_mem vecs w3 v3 h3
  have e12 : v2.length = v1.length := heq _ m2 _ m1
  have e13 : v3.length = v1.length := heq _ m3 _ m1
  obtain ⟨d, hd, hp, hlen⟩ := analogy_query v1 v2 v3 e12 e13
  constructor
  · rw [Analogy_of_lookup vecs w1 w2 w3 limit v1 v2 v3 h1 h2 h3, hd]
    simp only [hp]
  · intro e he _
    rw [hlen]
    exact le_of_eq (heq _ m1 e he)

end Returns

/-! ## Settled claims -/

section Claims

variable {α : Type} [LinearOrder α] [Zero α] [Add α] [Mul α]

/-- C1 as amended: with scores taken in a total order (no NaN), for every
enumeration of the table, query vector, skip set and limit `k ≥ 0`, the
scores of the list returned by `distance` are the first `k` of
the scores of all entries that are not skipped, sorted in descending order:
the bounded-insertion search and the naive full-sort-then-truncate search
return the same sequence of scores (and are undefined on the same inputs);
the returned results themselves are scored candidates, each taken at most
as often as it occurs, so the two searches can only differ in which of
several equal-scored words they keep and in what order. -/
theorem distance_refines_fullSort (vecs : Table α) (vec : List α) (skips : List String)
    (k : Nat) :
    returnedScores (distance vecs vec skips (k : Int))
        = fullSortThenTruncate vecs vec skips k
      ∧ ∀ r, distance vecs vec skips (k : Int) = some ⟨some r, none⟩ →
          ∃ cs, candidates vec skips vecs = some cs ∧ List.Subperm r cs := by
  constructor
  · rw [distance_eq]
    unfold fullSortThenTruncate
    cases candidates vec skips vecs with
    | none => rfl
    | some cs =>
      simp only [returnedScores, Int.toNat_ofNat]
      rw [scores_fold_eq_sort]
  · intro r h
    obtain ⟨cs, hcs, hret⟩ := distance_returned vecs vec skips (k : Int) _ h
    refine ⟨cs, hcs, ?_⟩
    simp only [SearchReturn.mk.injEq, Option.some.injEq, and_true] at hret
    rw [hret]
    simpa using fold_subperm (k : Int).toNat cs []

/-- The scenario of C1: on the cat/dog/fish table the naive search and
`distance` agree on the scores `[0.96, 0.6]`, and `Distance(table, "cat", 2)`
returns `[(dog, 0.96), (fish, 0.6)]` for each of the six enumeration orders
of the table. -/
theorem distance_refines_fullSort_scenario :
    returnedScores (distance catDogFish [3 / 5, 4 / 5] ["cat"] ((2 : Nat) : Int))
        = some [24 / 25, 3 / 5]
      ∧ fullSortThenTruncate catDogFish [3 / 5, 4 / 5] ["cat"] 2 = some [24 / 25, 3 / 5]
      ∧ List.all
          [[("cat", [3 / 5, 4 / 5]), ("dog", [4 / 5, 3 / 5]), ("fish", [1, 0])],
           [("cat", [3 / 5, 4 / 5]), ("fish", [1, 0]), ("dog", [4 / 5, 3 / 5])],
           [("dog", [4 / 5, 3 / 5]), ("cat", [3 / 5, 4 / 5]), ("fish", [1, 0])],
           [("dog", [4 / 5, 3 / 5]), ("fish", [1, 0]), ("cat", [3 / 5, 4 / 5])],
           [("fish", [1, 0]), ("cat", [3 / 5, 4 / 5]), ("dog", [4 / 5, 3 / 5])],
           [("fish", [1, 0]), ("dog", [4 / 5, 3 / 5]), ("cat", [3 / 5, 4 / 5])]]
          (fun t : Table ℚ => decide (Distance t "cat" 2
            = some ⟨some [⟨"dog", 24 / 25⟩, ⟨"fish", 3 / 5⟩], none⟩)) = true := by
  have hfull : fullSortThenTruncate catDogFish [3 / 5, 4 / 5] ["cat"] 2
      = some [24 / 25, 3 / 5] := by
    simp [fullSortThenTruncate, catDogFish, candidates, dotProduct, dotProductLoop, scores,
      List.insertionSort, List.orderedInsert]
    norm_num
  refine ⟨?_, hfull, ?_⟩
  · rw [(distance_refines_fullSort catDogFish [3 / 5, 4 / 5] ["cat"] 2).1]
    exact hfull
  · simp [Distance, List.lookup, distance, distanceLoop, distanceStep, dotProduct,
      dotProductLoop, Search, searchLoop, searchPred, insertWithLimit, copy]
    norm_num

/-- C2: the list returned by a search call is sorted non-increasing by score
(for all positions `i < j`, `result[i].Distance ≥ result[j].Distance`): this
holds of the list returned by `distance`, of the result buffer after any
number `n` of steps of the scan, and hence of the lists returned by
`Distance` and `Analogy`. -/
theorem search_results_sorted [Sub α] (vecs : Table α) (limit : Int) :
    (∀ vec skips r, distance vecs vec skips limit = some ⟨some r, none⟩ → NonIncreasing r)
    ∧ (∀ vec skips n buf,
        distanceLoop vec skips limit (vecs.take n) [] = some buf → NonIncreasing buf)
    ∧ (∀ w ret r, Distance vecs w limit = some ret → ret.results = some r → NonIncreasing r)
    ∧ (∀ w1 w2 w3 ret r,
        Analogy vecs w1 w2 w3 limit = some ret → ret.results = some r → NonIncreasing r) := by
  have hdist : ∀ (vec : List α) (skips : List String) (ret : SearchReturn α)
      (r : List (WordDistance α)),
      distance vecs vec skips limit = some ret → ret.results = some r → NonIncreasing r := by
    intro vec skips ret r h hr
    obtain ⟨cs, _, hret⟩ := distance_returned vecs vec skips limit ret h
    subst hret
    simp only [Option.some.injEq] at hr
    subst hr
    exact fold_nonIncreasing _ cs [] nonIncreasing_nil
  refine ⟨fun vec skips r h => hdist vec skips _ r h rfl, ?_, ?_, ?_⟩
  · intro vec skips n buf h
    exact distanceLoop_sorted vec skips limit _ buf h
  · intro w ret r h hr
    cases hl : vecs.lookup w with
    | none =>
      simp only [Distance, hl, Option.some.injEq] at h
      subst h
      simp at hr
    | some v =>
      rw [Distance_of_lookup vecs w limit v hl] at h
      exact hdist v [w] ret r h hr
  · intro w1 w2 w3 ret r h hr
    rcases Analogy_returned vecs w1 w2 w3 limit ret h with ⟨hnone, _⟩ | ⟨q, hq⟩
    · rw [hnone] at hr
      simp at hr
    · exact hdist q [w1, w2, w3] ret r hq hr

/-- C2 at a concrete table with a tie: `Distance(sample, "cat", 2)` returns
`[(eel, 24), (dog, 24)]`, which is sorted non-increasing. -/
theorem search_results_sorted_witness :
    Distance sample "cat" 2 = some ⟨some [⟨"eel", 24⟩, ⟨"dog", 24⟩], none⟩
      ∧ NonIncreasing ([⟨"eel", 24⟩, ⟨"dog", 24⟩] : List (WordDistance ℤ)) :=
  ⟨by decide, (search_results_sorted sample 2).2.2.1 "cat"
    ⟨some [⟨"eel", 24⟩, ⟨"dog", 24⟩], none⟩ [⟨"eel", 24⟩, ⟨"dog", 24⟩] (by decide) rfl⟩

/-- C3: for every table, query vector, skip set and limit `k ≥ 0`, whatever
`distance` returns is a `nil` error and a list whose length is exactly
`min(k, number of entries whose word is not skipped)`; and it does return
when the query is no longer than the vectors it is compared with, as the
data model guarantees.  So the length never exceeds `k`, it is the eligible
count when `k` is at least that count, and with no eligible entry the list
is empty. -/
theorem distance_length (vecs : Table α) (vec : List α) (skips : List String) (k : Nat) :
    (∀ ret, distance vecs vec skips (k : Int) = some ret →
        ret.err = none
          ∧ ∃ r, ret.results = some r ∧ r.length = min k (eligible skips vecs).length)
    ∧ (QueryFits vec skips vecs →
        ∃ r, distance vecs vec skips (k : Int) = some ⟨some r, none⟩
          ∧ r.length = min k (eligible skips vecs).length
          ∧ r.length ≤ k
          ∧ ((eligible skips vecs).length ≤ k → r.length = (eligible skips vecs).length)
          ∧ (eligible skips vecs = [] → r = [])) := by
  have key : ∀ cs, candidates vec skips vecs = some cs →
      (cs.foldl (boundedInsert (k : Int).toNat) []).length
        = min k (eligible skips vecs).length := by
    intro cs hcs
    have hn : cs.length = (eligible skips vecs).length := by
      have hw := congrArg List.length (candidates_words vec skips vecs cs hcs)
      simpa [words, keys] using hw
    rw [Int.toNat_ofNat, fold_length k cs [] (by simp), ← hn]
    simp
  constructor
  · intro ret h
    obtain ⟨cs, hcs, hret⟩ := distance_returned vecs vec skips (k : Int) ret h
    subst hret
    exact ⟨rfl, _, rfl, key cs hcs⟩
  · intro hfit
    obtain ⟨cs, hcs, hd⟩ := distance_of_fits vecs vec skips (k : Int) hfit
    have hlen := key cs hcs
    refine ⟨_, hd, hlen, ?_, ?_, ?_⟩
    · rw [hlen]; omega
    · intro h; rw [hlen]; omega
    · intro h
      apply List.eq_nil_of_length_eq_zero
      rw [hlen, h]
      simp

/-- C3 at a concrete table: four entries, one skipped, limit 5: the call
returns three results. -/
theorem distance_length_witness :
    QueryFits [3, 4] ["cat"] sample
      ∧ distance sample [3, 4] ["cat"] ((5 : Nat) : Int)
          = some ⟨some [⟨"eel", 24⟩, ⟨"dog", 24⟩, ⟨"fish", 15⟩], none⟩
      ∧ (eligible ["cat"] sample).length = 3
      ∧ ∃ r, distance sample [3, 4] ["cat"] ((5 : Nat) : Int) = some ⟨some r, none⟩
        ∧ r.length = min 5 (eligible ["cat"] sample).length
        ∧ r.length ≤ 5
        ∧ ((eligible ["cat"] sample).length ≤ 5 → r.length = (eligible ["cat"] sample).length)
        ∧ (eligible ["cat"] sample = [] → r = []) :=
  ⟨by simp [QueryFits, sample], by decide, by decide,
    (distance_length sample [3, 4] ["cat"] 5).2 (by simp [QueryFits, sample])⟩

/-- C4: whatever list `Distance(T, w, k)` returns, no element of it has
`Word` equal to `w`. -/
theorem Distance_excludes_query (vecs : Table α) (w : String) (k : Int)
    (ret : SearchReturn α) (r : List (WordDistance α))
    (h : Distance vecs w k = some ret) (hr : ret.results = some r) :
    ∀ x ∈ r, x.Word ≠ w := by
  intro x hx
  cases hl : vecs.lookup w with
  | none =>
    simp only [Distance, hl, Option.some.injEq] at h
    subst h
    simp at hr
  | some v =>
    rw [Distance_of_lookup vecs w k v hl] at h
    obtain ⟨e, _, hskip, hword, _⟩ := distance_mem vecs v [w] k ret r h hr x hx
    intro hxw
    apply hskip
    rw [← hword, hxw]
    exact List.mem_singleton_self w

/-- C4 at a concrete table: the two results of `Distance(sample, "cat", 2)`
are not `cat`. -/
theorem Distance_excludes_query_witness :
    Distance sample "cat" 2 = some ⟨some [⟨"eel", 24⟩, ⟨"dog", 24⟩], none⟩
      ∧ ∀ x ∈ ([⟨"eel", 24⟩, ⟨"dog", 24⟩] : List (WordDistance ℤ)), x.Word ≠ "cat" :=
  ⟨by decide, Distance_excludes_query sample "cat" 2
    ⟨some [⟨"eel", 24⟩, ⟨"dog", 24⟩], none⟩ [⟨"eel", 24⟩, ⟨"dog", 24⟩] (by decide) rfl⟩

/-- C5: whatever list `Analogy(T, w1, w2, w3, k)` returns, no element of it
has `Word` equal to `w1`, `w2` or `w3` (the three words need not be
distinct). -/
theorem Analogy_excludes_operands [Sub α] (vecs : Table α) (w1 w2 w3 : String) (k : Int)
    (ret : SearchReturn α) (r : List (WordDistance α))
    (h : Analogy vecs w1 w2 w3 k = some ret) (hr : ret.results = some r) :
    ∀ x ∈ r, x.Word ≠ w1 ∧ x.Word ≠ w2 ∧ x.Word ≠ w3 := by
  intro x hx
  rcases Analogy_returned vecs w1 w2 w3 k ret h with ⟨hnone, _⟩ | ⟨q, hq⟩
  · rw [hnone] at hr
    simp at hr
  · obtain ⟨e, _, hskip, hword, _⟩ := distance_mem vecs q [w1, w2, w3] k ret r hq hr x hx
    rw [hword]
    simp only [List.mem_cons, List.mem_singleton, List.not_mem_nil, or_false, not_or] at hskip
    exact hskip

/-- C5 at a concrete table: `Analogy(sample, "cat", "dog", "fish", 2)` returns
only `eel`. -/
theorem Analogy_excludes_operands_witness :
    Analogy sample "cat" "dog" "fish" 2 = some ⟨some [⟨"eel", 21⟩], none⟩
      ∧ ∀ x ∈ ([⟨"eel", 21⟩] : List (WordDistance ℤ)),
          x.Word ≠ "cat" ∧ x.Word ≠ "dog" ∧ x.Word ≠ "fish" :=
  ⟨by decide, Analogy_excludes_operands sample "cat" "dog" "fish" 2
    ⟨some [⟨"eel", 21⟩], none⟩ [⟨"eel", 21⟩] (by decide) rfl⟩

/-- C6: `Distance(T, w, k)` returns an error if and only if `w` is not a key
of `T`; in that case the returned list is `nil` and the message is
`"Unknown word: "` followed by `w`; when `w` is a key every return carries a
`nil` error, and on a table of equal-length vectors the call does return. -/
theorem Distance_error_iff (vecs : Table α) (w : String) (k : Int) :
    ((∃ l m, Distance vecs w k = some ⟨l, some m⟩) ↔ w ∉ keys vecs)
    ∧ (w ∉ keys vecs → Distance vecs w k = some ⟨none, some ("Unknown word: " ++ w)⟩)
    ∧ (w ∈ keys vecs → ∀ ret, Distance vecs w k = some ret → ret.err = none)
    ∧ (w ∈ keys vecs → EqualLength vecs → ∃ r, Distance vecs w k = some ⟨some r, none⟩) := by
  have hfail : w ∉ keys vecs →
      Distance vecs w k = some ⟨none, some ("Unknown word: " ++ w)⟩ := by
    intro hw
    have hl := (lookup_eq_none_iff_not_key vecs w).mpr hw
    simp [Distance, hl, unknownWord]
  have hok : w ∈ keys vecs → ∀ ret, Distance vecs w k = some ret → ret.err = none := by
    intro hw ret h
    obtain ⟨v, hl⟩ := lookup_of_key vecs w hw
    rw [Distance_of_lookup vecs w k v hl] at h
    exact distance_err vecs v [w] k ret h
  refine ⟨⟨?_, ?_⟩, hfail, hok, ?_⟩
  · rintro ⟨l, m, h⟩ hw
    have herr := hok hw _ h
    simp at herr
  · intro hw
    exact ⟨none, _, hfail hw⟩
  · intro hw heq
    obtain ⟨v, hl⟩ := lookup_of_key vecs w hw
    rw [Distance_of_lookup vecs w k v hl]
    obtain ⟨cs, _, hd⟩ := distance_of_fits vecs v [w] k
      (queryFits_of_equalLength vecs heq w v (lookup_mem vecs w v hl) [w])
    exact ⟨_, hd⟩

/-- C6 at the scenario of the specification: `Distance(table, "bird", 2)` on
the cat/dog/fish table fails naming `bird`. -/
theorem Distance_error_iff_witness :
    "bird" ∉ keys catDogFish
      ∧ Distance catDogFish "bird" 2 = some ⟨none, some "Unknown word: bird"⟩ :=
  ⟨by decide, (Distance_error_iff catDogFish "bird" 2).2.1 (by decide)⟩

/-- C7: `Analogy(T, w1, w2, w3, k)` returns an error if and only if one of
`w1`, `w2`, `w3` is not a key of `T`; the returned list is then `nil` and the
message `"Unknown word: <w>"` names the first absent word in the order
`w1`, `w2`, `w3`. -/
theorem Analogy_error_iff [Sub α] (vecs : Table α) (w1 w2 w3 : String) (k : Int) :
    ((∃ l m, Analogy vecs w1 w2 w3 k = some ⟨l, some m⟩)
        ↔ (w1 ∉ keys vecs ∨ w2 ∉ keys vecs ∨ w3 ∉ keys vecs))
    ∧ (w1 ∉ keys vecs →
        Analogy vecs w1 w2 w3 k = some ⟨none, some ("Unknown word: " ++ w1)⟩)
    ∧ (w1 ∈ keys vecs → w2 ∉ keys vecs →
        Analogy vecs w1 w2 w3 k = some ⟨none, some ("Unknown word: " ++ w2)⟩)
    ∧ (w1 ∈ keys vecs → w2 ∈ keys vecs → w3 ∉ keys vecs →
        Analogy vecs w1 w2 w3 k = some ⟨none, some ("Unknown word: " ++ w3)⟩) := by
  have f1 : w1 ∉ keys vecs →
      Analogy vecs w1 w2 w3 k = some ⟨none, some ("Unknown word: " ++ w1)⟩ := by
    intro hw
    have hl := (lookup_eq_none_iff_not_key vecs w1).mpr hw
    simp [Analogy, hl, unknownWord]
  have f2 : w1 ∈ keys vecs → w2 ∉ keys vecs →
      Analogy vecs w1 w2 w3 k = some ⟨none, some ("Unknown word: " ++ w2)⟩ := by
    intro hw1 hw2
    obtain ⟨v1, hl1⟩ := lookup_of_key vecs w1 hw1
    have hl2 := (lookup_eq_none_iff_not_key vecs w2).mpr hw2
    simp [Analogy, hl1, hl2, unknownWord]
  have f3 : w1 ∈ keys vecs → w2 ∈ keys vecs → w3 ∉ keys vecs →
      Analogy vecs w1 w2 w3 k = some ⟨none, some ("Unknown word: " ++ w3)⟩ := by
    intro hw1 hw2 hw3
    obtain ⟨v1, hl1⟩ := lookup_of_key vecs w1 hw1
    obtain ⟨v2, hl2⟩ := lookup_of_key vecs w2 hw2
    have hl3 := (lookup_eq_none_iff_not_key vecs w3).mpr hw3
    simp [Analogy, hl1, hl2, hl3, unknownWord]
  refine ⟨⟨?_, ?_⟩, f1, f2, f3⟩
  · rintro ⟨l, m, h⟩
    by_contra hall
    simp only [not_or, not_not] at hall
    obtain ⟨hw1, hw2, hw3⟩ := hall
    obtain ⟨v1, hl1⟩ := lookup_of_key vecs w1 hw1
    obtain ⟨v2, hl2⟩ := lookup_of_key vecs w2 hw2
    obtain ⟨v3, hl3⟩ := lookup_of_key vecs w3 hw3
    rw [Analogy_of_lookup vecs w1 w2 w3 k v1 v2 v3 hl1 hl2 hl3] at h
    cases hm : minus v2 v1 with
    | none => simp [hm] at h
    | some d =>
      cases hp : plus d v3 with
      | none => simp [hm, hp] at h
      | some q =>
        simp only [hm, hp] at h
        have herr := distance_err vecs q [w1, w2, w3] k _ h
        simp at herr
  · intro hor
    by_cases hw1 : w1 ∈ keys vecs
    · by_cases hw2 : w2 ∈ keys vecs
      · have hw3 : w3 ∉ keys vecs := by
          rcases hor with h | h | h
          · exact absurd hw1 h
          · exact absurd hw2 h
          · exact h
        exact ⟨none, _, f3 hw1 hw2 hw3⟩
      · exact ⟨none, _, f2 hw1 hw2⟩
    · exact ⟨none, _, f1 hw1⟩

/-- C7 at a concrete table: with `dog` present and both `bird` and `newt`
absent, the error names `bird`, the first absent word. -/
theorem Analogy_error_iff_witness :
    ("dog" ∈ keys sample ∧ "bird" ∉ keys sample ∧ "newt" ∉ keys sample)
      ∧ Analogy sample "dog" "bird" "newt" 3 = some ⟨none, some "Unknown word: bird"⟩ :=
  ⟨by decide, (Analogy_error_iff sample "dog" "bird" "newt" 3).2.2.1 (by decide) (by decide)⟩

/-- C10: for every table, words present in the table and every limit
`k ≤ 0` (zero or negative), whatever `Distance` and `Analogy` return is an
empty list with a `nil` error, whatever the size of the table; and on a
table of equal-length vectors, as the data model guarantees, they do
return. -/
theorem nonpositive_limit_empty [Sub α] (vecs : Table α) (k : Int) (hk : k ≤ 0) :
    (∀ w ret, w ∈ keys vecs → Distance vecs w k = some ret → ret = ⟨some [], none⟩)
    ∧ (∀ w1 w2 w3 ret, w1 ∈ keys vecs → w2 ∈ keys vecs → w3 ∈ keys vecs →
        Analogy vecs w1 w2 w3 k = some ret → ret = ⟨some [], none⟩)
    ∧ (EqualLength vecs →
        (∀ w, w ∈ keys vecs → Distance vecs w k = some ⟨some [], none⟩)
        ∧ (∀ w1 w2 w3, w1 ∈ keys vecs → w2 ∈ keys vecs → w3 ∈ keys vecs →
            Analogy vecs w1 w2 w3 k = some ⟨some [], none⟩)) := by
  refine ⟨?_, ?_, ?_⟩
  · intro w ret hw h
    obtain ⟨v, hl⟩ := lookup_of_key vecs w hw
    rw [Distance_of_lookup vecs w k v hl] at h
    exact distance_nonpositive_returned vecs v [w] k hk ret h
  · intro w1 w2 w3 ret hw1 hw2 hw3 h
    obtain ⟨v1, hl1⟩ := lookup_of_key vecs w1 hw1
    obtain ⟨v2, hl2⟩ := lookup_of_key vecs w2 hw2
    obtain ⟨v3, hl3⟩ := lookup_of_key vecs w3 hw3
    rw [Analogy_of_lookup vecs w1 w2 w3 k v1 v2 v3 hl1 hl2 hl3] at h
    cases hm : minus v2 v1 with
    | none => simp [hm] at h
    | some d =>
      cases hp : plus d v3 with
      | none => simp [hm, hp] at h
      | some q =>
        simp only [hm, hp] at h
        exact distance_nonpositive_returned vecs q [w1, w2, w3] k hk ret h
  · intro heq
    constructor
    · intro w hw
      obtain ⟨v, hl⟩ := lookup_of_key vecs w hw
      rw [Distance_of_lookup vecs w k v hl]
      exact distance_nonpositive vecs v [w] k hk
        (queryFits_of_equalLength vecs heq w v (lookup_mem vecs w v hl) [w])
    · intro w1 w2 w3 hw1 hw2 hw3
      obtain ⟨v1, hl1⟩ := lookup_of_key vecs w1 hw1
      obtain ⟨v2, hl2⟩ := lookup_of_key vecs w2 hw2
      obtain ⟨v3, hl3⟩ := lookup_of_key vecs w3 hw3
      obtain ⟨hA, hfit⟩ := Analogy_of_equalLength vecs heq w1 w2 w3 k v1 v2 v3 hl1 hl2 hl3
      rw [hA]
      exact distance_nonpositive vecs _ [w1, w2, w3] k hk hfit

/-- C10 at a concrete table, with limit `0` for `Distance` and limit `-3` for
`Analogy`. -/
theorem nonpositive_limit_empty_witness :
    EqualLength sample
      ∧ Distance sample "cat" 0 = some ⟨some [], none⟩
      ∧ Analogy sample "cat" "dog" "eel" (-3) = some ⟨some [], none⟩ :=
  ⟨by simp [EqualLength, sample],
    ((nonpositive_limit_empty sample 0 (by decide)).2.2 (by simp [EqualLength, sample])).1
      "cat" (by decide),
    ((nonpositive_limit_empty sample (-3) (by decide)).2.2 (by simp [EqualLength, sample])).2
      "cat" "dog" "eel" (by decide) (by decide) (by decide)⟩

end Claims

/-! ## Scores over exact arithmetic -/

section Exact

variable {α : Type}

/-- Over a semiring the loop of `dotProduct` adds the sum of the products to
the accumulator. -/
theorem dotProductLoop_eq_sum [Semiring α] (w : List α) :
    ∀ (v : List α) (idx : Nat) (acc : α), idx + v.length ≤ w.length →
      dotProductLoop w v idx acc
        = some (acc + (List.zipWith (· * ·) v (w.drop idx)).sum) := by
  intro v
  induction v with
  | nil => intro idx acc _; simp [dotProductLoop]
  | cons val rest ih =>
    intro idx acc h
    have hlt : idx < w.length := by simp only [List.length_cons] at h; omega
    have hrec := ih (idx + 1) (acc + val * w[idx]) (by simp only [List.length_cons] at h; omega)
    unfold dotProductLoop
    rw [List.getElem?_eq_getElem hlt]
    simp only [hrec]
    rw [List.drop_eq_getElem_cons hlt, List.zipWith_cons_cons, List.sum_cons, add_assoc]

theorem zipWith_mul_sum [Semiring α] :
    ∀ (v w : List α), v.length ≤ w.length →
      (List.zipWith (· * ·) v w).sum = sumOfProducts v.length v w := by
  intro v
  induction v with
  | nil => intro w _; simp [sumOfProducts]
  | cons a v ih =>
    intro w h
    cases w with
    | nil => simp at h
    | cons b w =>
      have hrec := ih w (by simpa using h)
      unfold sumOfProducts at hrec ⊢
      rw [List.zipWith_cons_cons, List.sum_cons, hrec, List.length_cons,
        Finset.sum_range_succ']
      simp only [List.getD_cons_succ, List.getD_cons_zero]
      exact add_comm _ _

/-- Over a semiring `dotProduct(v, w)` is the sum over all indices of `v` of
`v[i] * w[i]`. -/
theorem dotProduct_eq_sum [Semiring α] (v w : List α) (h : v.length ≤ w.length) :
    dotProduct v w = some (sumOfProducts v.length v w) := by
  unfold dotProduct
  rw [dotProductLoop_eq_sum w v 0 0 (by omega), List.drop_zero, zero_add,
    zipWith_mul_sum v w h]

theorem analogyQuery_getElem? [Sub α] [Add α] (v1 v2 v3 : List α) (i : Nat) (a b c : α)
    (h1 : v1[i]? = some a) (h2 : v2[i]? = some b) (h3 : v3[i]? = some c) :
    (analogyQuery v1 v2 v3)[i]? = some ((b - a) + c) := by
  simp [analogyQuery, List.getElem?_zipWith, h1, h2, h3]

theorem analogyQuery_length [Sub α] [Add α] (v1 v2 v3 : List α)
    (h12 : v2.length = v1.length) (h13 : v3.length = v1.length) :
    (analogyQuery v1 v2 v3).length = v1.length := by
  simp [analogyQuery]
  omega

/-- Over a ring the sum of products is linear in the analogy query. -/
theorem sumOfProducts_analogyQuery [Ring α] (v1 v2 v3 vx : List α)
    (h12 : v2.length = v1.length) (h13 : v3.length = v1.length) :
    sumOfProducts v1.length (analogyQuery v1 v2 v3) vx
      = sumOfProducts v1.length v2 vx - sumOfProducts v1.length v1 vx
        + sumOfProducts v1.length v3 vx := by
  unfold sumOfProducts
  rw [← Finset.sum_sub_distrib, ← Finset.sum_add_distrib]
  apply Finset.sum_congr rfl
  intro i hi
  have hi1 : i < v1.length := Finset.mem_range.mp hi
  have hi2 : i < v2.length := by omega
  have hi3 : i < v3.length := by omega
  have hq := analogyQuery_getElem? v1 v2 v3 i v1[i] v2[i] v3[i]
    (List.getElem?_eq_getElem hi1) (List.getElem?_eq_getElem hi2)
    (List.getElem?_eq_getElem hi3)
  have g1 : v1.getD i 0 = v1[i] := List.getD_eq_getElem _ _ hi1
  have g2 : v2.getD i 0 = v2[i] := List.getD_eq_getElem _ _ hi2
  have g3 : v3.getD i 0 = v3[i] := List.getD_eq_getElem _ _ hi3
  have gq : (analogyQuery v1 v2 v3).getD i 0 = (v2[i] - v1[i]) + v3[i] := by
    rw [List.getD_eq_getElem?_getD, hq]
    rfl
  rw [g1, g2, g3, gq, add_mul, sub_mul]

/-- The words of the candidates are distinct when the keys of the table
are. -/
theorem candidates_words_nodup [Zero α] [Add α] [Mul α] (vecs : Table α)
    (hn : NodupKeys vecs) (vec : List α) (skips : List String) (cs : List (WordDistance α))
    (hcs : candidates vec skips vecs = some cs) : (words cs).Nodup := by
  rw [candidates_words vec skips vecs cs hcs]
  exact List.Nodup.sublist (List.Sublist.map _ (List.filter_sublist _)) hn

/-- The words of the results are distinct when the keys of the table are. -/
theorem fold_words_nodup [LinearOrder α] (k : Nat) (cs : List (WordDistance α))
    (h : (words cs).Nodup) : (words (cs.foldl (boundedInsert k) [])).Nodup := by
  obtain ⟨l, hperm, hsub⟩ := fold_subperm k cs []
  have hl : (words l).Nodup :=
    List.Nodup.sublist (List.Sublist.map _ (by simpa using hsub)) h
  exact (List.Perm.nodup_iff (hperm.map _)).mp hl

variable [LinearOrder α]

/-- C8: on a table of equal-length vectors with unique keys, for a word `w`
of the table with vector `v`, `Distance(T, w, k)` returns a list in which
every element `(x, s)` has `x` a key of `T` and `s = dotProduct(T[w], T[x])`,
which is the sum over all indices `i` of `T[w][i] * T[x][i]`; and no word
occurs twice in the list. -/
theorem Distance_scores [Semiring α] (vecs : Table α) (hn : NodupKeys vecs)
    (heq : EqualLength vecs) (w : String) (k : Int) (v : List α)
    (hv : vecs.lookup w = some v) :
    ∃ r, Distance vecs w k = some ⟨some r, none⟩
      ∧ (∀ x ∈ r, ∃ vx, vecs.lookup x.Word = some vx
          ∧ vx.length = v.length
          ∧ dotProduct v vx = some x.Distance
          ∧ x.Distance = sumOfProducts v.length v vx)
      ∧ (words r).Nodup := by
  have hmem := lookup_mem vecs w v hv
  obtain ⟨cs, hcs, hd⟩ := distance_of_fits vecs v [w] k
    (queryFits_of_equalLength vecs heq w v hmem [w])
  rw [Distance_of_lookup vecs w k v hv]
  refine ⟨_, hd, ?_, ?_⟩
  · intro x hx
    obtain ⟨e, he, _, hword, hdot⟩ := distance_mem vecs v [w] k _ _ hd rfl x hx
    have hlen : e.2.length = v.length := heq e he (w, v) hmem
    refine ⟨e.2, ?_, hlen, hdot, ?_⟩
    · rw [hword]
      exact lookup_of_mem vecs hn e.1 e.2 he
    · have hsum := dotProduct_eq_sum v e.2 (le_of_eq hlen.symm)
      rw [hdot] at hsum
      exact Option.some.inj hsum
  · exact fold_words_nodup _ cs (candidates_words_nodup vecs hn v [w] cs hcs)

/-- C8 at a concrete table: `Distance(sample, "cat", 2)`, with the value of
one score as a sum of products. -/
theorem Distance_scores_witness :
    (NodupKeys sample ∧ EqualLength sample ∧ sample.lookup "cat" = some [3, 4])
      ∧ (∃ r, Distance sample "cat" 2 = some ⟨some r, none⟩
        ∧ (∀ x ∈ r, ∃ vx, sample.lookup x.Word = some vx
            ∧ vx.length = ([3, 4] : List ℤ).length
            ∧ dotProduct [3, 4] vx = some x.Distance
            ∧ x.Distance = sumOfProducts ([3, 4] : List ℤ).length [3, 4] vx)
        ∧ (words r).Nodup)
      ∧ sumOfProducts 2 ([3, 4] : List ℤ) [4, 3] = 24 :=
  ⟨⟨by unfold NodupKeys; decide, by simp [EqualLength, sample], by decide⟩,
    Distance_scores sample (by unfold NodupKeys; decide) (by simp [EqualLength, sample])
      "cat" 2 [3, 4] (by decide),
    by simp [sumOfProducts, Finset.sum_range_succ]⟩

/-- C9: on a table of equal-length vectors with unique keys, for words `w1`,
`w2`, `w3` of the table, `Analogy` searches with the query `q` whose `i`-th
component is `(T[w2][i] - T[w1][i]) + T[w3][i]`, not normalized again:
every element `(x, s)` of the returned list has `s = dotProduct(q, T[x])`,
which over exact arithmetic is
`dot(T[w2], T[x]) - dot(T[w1], T[x]) + dot(T[w3], T[x])`. -/
theorem Analogy_scores [Ring α] (vecs : Table α) (hn : NodupKeys vecs)
    (heq : EqualLength vecs) (w1 w2 w3 : String) (k : Int) (v1 v2 v3 : List α)
    (h1 : vecs.lookup w1 = some v1) (h2 : vecs.lookup w2 = some v2)
    (h3 : vecs.lookup w3 = some v3) :
    (analogyQuery v1 v2 v3).length = v1.length
      ∧ (∀ (i : Nat) (a b c : α), v1[i]? = some a → v2[i]? = some b → v3[i]? = some c →
          (analogyQuery v1 v2 v3)[i]? = some ((b - a) + c))
      ∧ Analogy vecs w1 w2 w3 k = distance vecs (analogyQuery v1 v2 v3) [w1, w2, w3] k
      ∧ ∃ r, Analogy vecs w1 w2 w3 k = some ⟨some r, none⟩
        ∧ ∀ x ∈ r, ∃ vx, vecs.lookup x.Word = some vx
          ∧ dotProduct (analogyQuery v1 v2 v3) vx = some x.Distance
          ∧ ∃ a b c, dotProduct v2 vx = some a ∧ dotProduct v1 vx = some b
            ∧ dotProduct v3 vx = some c ∧ x.Distance = a - b + c := by
  have m1 := lookup_mem vecs w1 v1 h1
  have m2 := lookup_mem vecs w2 v2 h2
  have m3 := lookup_mem vecs w3 v3 h3
  have e12 : v2.length = v1.length := heq _ m2 _ m1
  have e13 : v3.length = v1.length := heq _ m3 _ m1
  have hql := analogyQuery_length v1 v2 v3 e12 e13
  obtain ⟨hA, hfit⟩ := Analogy_of_equalLength vecs heq w1 w2 w3 k v1 v2 v3 h1 h2 h3
  obtain ⟨cs, _, hd⟩ := distance_of_fits vecs _ [w1, w2, w3] k hfit
  refine ⟨hql, fun i a b c => analogyQuery_getElem? v1 v2 v3 i a b c, hA, _, hA.trans hd, ?_⟩
  intro x hx
  obtain ⟨e, he, _, hword, hdot⟩ := distance_mem vecs _ [w1, w2, w3] k _ _ hd rfl x hx
  have hlen : v1.length = e.2.length := heq _ m1 e he
  refine ⟨e.2, ?_, hdot, _, _, _, dotProduct_eq_sum v2 e.2 (by omega),
    dotProduct_eq_sum v1 e.2 (by omega), dotProduct_eq_sum v3 e.2 (by omega), ?_⟩
  · rw [hword]
    exact lookup_of_mem vecs hn e.1 e.2 he
  · have hsum := dotProduct_eq_sum (analogyQuery v1 v2 v3) e.2 (by unfold analogyQuery at hql ⊢; omega)
    have hdot2 : dotProduct (analogyQuery v1 v2 v3) e.2 = some x.Distance := hdot
    rw [hdot2] at hsum
    rw [Option.some.inj hsum, hql, e12, e13]
    exact sumOfProducts_analogyQuery v1 v2 v3 e.2 e12 e13

/-- C9 at a concrete table: `Analogy(sample, "cat", "dog", "fish", 2)`
searches with `q = [6, -1]` and returns `eel` with score
`21 = 25 - 24 + 20`. -/
theorem Analogy_scores_witness :
    (NodupKeys sample ∧ EqualLength sample ∧ sample.lookup "cat" = some [3, 4]
        ∧ sample.lookup "dog" = some [4, 3] ∧ sample.lookup "fish" = some [5, 0])
      ∧ analogyQuery ([3, 4] : List ℤ) [4, 3] [5, 0] = [6, -1]
      ∧ Analogy sample "cat" "dog" "fish" 2 = some ⟨some [⟨"eel", 21⟩], none⟩
      ∧ (∃ r, Analogy sample "cat" "dog" "fish" 2 = some ⟨some r, none⟩
        ∧ ∀ x ∈ r, ∃ vx, sample.lookup x.Word = some vx
          ∧ dotProduct (analogyQuery [3, 4] [4, 3] [5, 0]) vx = some x.Distance
          ∧ ∃ a b c, dotProduct [4, 3] vx = some a ∧ dotProduct [3, 4] vx = some b
            ∧ dotProduct [5, 0] vx = some c ∧ x.Distance = a - b + c) :=
  ⟨⟨by unfold NodupKeys; decide, by simp [EqualLength, sample], by decide, by decide,
      by decide⟩,
    by decide, by decide,
    (Analogy_scores sample (by unfold NodupKeys; decide) (by simp [EqualLength, sample])
      "cat" "dog" "fish" 2 [3, 4] [4, 3] [5, 0] (by decide) (by decide) (by decide)).2.2.2⟩

end Exact

/-! ## The decoder: reading entries -/

section DecoderLemmas

variable {α : Type}

theorem readString_of_firstSpace :
    ∀ (r : List Nat) (i : Nat), firstSpace r = some i →
      readString 32 r = (r.take (i + 1), r.drop (i + 1), false) := by
  intro r
  induction r with
  | nil => intro i h; simp [firstSpace] at h
  | cons b bs ih =>
    intro i h
    unfold firstSpace at h
    by_cases hb : b = 32
    · simp only [hb, if_true, Option.some.injEq] at h
      subst h
      simp [readString, hb]
    · simp only [hb, if_false] at h
      cases hf : firstSpace bs with
      | none => simp [hf] at h
      | some j =>
        simp only [hf, Option.some.injEq] at h
        subst h
        simp [readString, hb, ih j hf]

theorem readString_of_no_space :
    ∀ (r : List Nat), firstSpace r = none → readString 32 r = (r, [], true) := by
  intro r
  induction r with
  | nil => intro _; rfl
  | cons b bs ih =>
    intro h
    unfold firstSpace at h
    by_cases hb : b = 32
    · simp [hb] at h
    · simp only [hb, if_false] at h
      cases hf : firstSpace bs with
      | none => simp [readString, hb, ih hf]
      | some j => simp [hf] at h

theorem readFull_of_le (n : Nat) (r : List Nat) (h : n ≤ r.length) :
    readFull n r = Except.ok (r.take n, r.drop n) := by
  simp [readFull, h]

theorem readFull_of_lt (n : Nat) (r : List Nat) (h : r.length < n) :
    ∃ e, readFull n r = Except.error e := by
  have hn : ¬ n ≤ r.length := by omega
  unfold readFull
  by_cases h0 : r.length = 0
  · exact ⟨ReadError.eof, by rw [if_neg hn, if_pos h0]⟩
  · exact ⟨ReadError.unexpectedEOF, by rw [if_neg hn, if_neg h0]⟩

theorem decodeFloats_length (fromBits : Nat → α) :
    ∀ (n : Nat) (bytes : List Nat), bytes.length = 4 * n →
      (decodeFloats fromBits bytes).length = n := by
  intro n
  induction n with
  | zero =>
    intro bytes h
    have hnil : bytes = [] := List.eq_nil_of_length_eq_zero (by omega)
    subst hnil
    rfl
  | succ n ih =>
    intro bytes h
    match bytes, h with
    | b0 :: b1 :: b2 :: b3 :: rest, h =>
      simp only [decodeFloats, List.length_cons]
      rw [ih rest (by simp only [List.length_cons] at h; omega)]

theorem normalize_length [Zero α] [Add α] [Mul α] [Div α] (sqrt : α → α) (vec : List α) :
    (normalize sqrt vec).length = vec.length := by
  simp [normalize]

/-! ### The map assignment -/

theorem mem_mapSet (word : String) (vec : List α) (e : String × List α) :
    ∀ vecs : Table α, e ∈ mapSet vecs word vec → e ∈ vecs ∨ e = (word, vec) := by
  intro vecs
  induction vecs with
  | nil => intro h; simpa [mapSet] using h
  | cons e0 rest ih =>
    obtain ⟨k, u⟩ := e0
    intro h
    unfold mapSet at h
    by_cases hk : k = word
    · simp only [hk, if_true, List.mem_cons] at h
      rcases h with h | h
      · exact Or.inr h
      · exact Or.inl (List.mem_cons_of_mem _ h)
    · simp only [hk, if_false, List.mem_cons] at h
      rcases h with h | h
      · exact Or.inl (h ▸ List.mem_cons_self _ _)
      · rcases ih h with h2 | h2
        · exact Or.inl (List.mem_cons_of_mem _ h2)
        · exact Or.inr h2

theorem keys_mapSet (word : String) (vec : List α) :
    ∀ vecs : Table α, keys (mapSet vecs word vec)
      = if word ∈ keys vecs then keys vecs else keys vecs ++ [word] := by
  intro vecs
  induction vecs with
  | nil => simp [mapSet, keys]
  | cons e0 rest ih =>
    obtain ⟨k, u⟩ := e0
    unfold mapSet
    by_cases hk : k = word
    · subst hk; simp [keys]
    · have hne : ¬ word = k := fun h => hk h.symm
      simp only [hk, if_false]
      simp only [keys, List.map_cons, List.mem_cons, hne, false_or, List.cons_append] at ih ⊢
      rw [ih]
      split <;> rfl

theorem nodupKeys_mapSet (vecs : Table α) (word : String) (vec : List α)
    (h : NodupKeys vecs) : NodupKeys (mapSet vecs word vec) := by
  unfold NodupKeys at h ⊢
  rw [keys_mapSet]
  by_cases hk : word ∈ keys vecs
  · simpa [hk] using h
  · simp only [hk, if_false]
    exact List.Nodup.append h (List.nodup_singleton _) (by simpa using hk)

theorem length_mapSet (word : String) (vec : List α) :
    ∀ vecs : Table α, (mapSet vecs word vec).length ≤ vecs.length + 1 := by
  intro vecs
  induction vecs with
  | nil => simp [mapSet]
  | cons e0 rest ih =>
    obtain ⟨k, u⟩ := e0
    unfold mapSet
    by_cases hk : k = word
    · simp [hk]
    · simp only [hk, if_false, List.length_cons]
      omega

theorem lookup_mapSet (word : String) (vec : List α) (w : String) :
    ∀ vecs : Table α,
      (mapSet vecs word vec).lookup w = if w = word then some vec else vecs.lookup w := by
  intro vecs
  induction vecs with
  | nil =>
    by_cases hw : w = word
    · subst hw; simp [mapSet, List.lookup]
    · have hb : (w == word) = false := by simpa using hw
      simp [mapSet, List.lookup, hw, hb]
  | cons e0 rest ih =>
    obtain ⟨k, u⟩ := e0
    unfold mapSet
    by_cases hk : k = word
    · subst hk
      by_cases hw : w = k
      · subst hw; simp [List.lookup]
      · have hb : (w == k) = false := by simpa using hw
        simp [List.lookup, hw, hb]
    · simp only [hk, if_false]
      by_cases hw : w = k
      · subst hw
        simp [List.lookup, hk]
      · have hb : (w == k) = false := by simpa using hw
        simp only [List.lookup, hb, ih]

/-! ### The loop of `ReadVectors` -/

section Loop

variable [Zero α] [Add α] [Mul α] [Div α]

/-- On a body that holds all `n` entries the loop stores them all. -/
theorem readLoop_complete (toWord : List Nat → String) (fromBits : Nat → α)
    (sqrt : α → α) (vSize : Nat) :
    ∀ (n : Nat) (r : List Nat) (vecs : Table α) (es : List (List Nat × List Nat)),
      splitEntries vSize n r = some es →
      readLoop toWord fromBits sqrt vSize n r vecs
        = ⟨some (storeAll toWord fromBits sqrt es vecs), none⟩ := by
  intro n
  induction n with
  | zero =>
    intro r vecs es h
    simp only [splitEntries, Option.some.injEq] at h
    subst h
    rfl
  | succ n ih =>
    intro r vecs es h
    unfold splitEntries at h
    cases hf : firstSpace r with
    | none => simp [hf] at h
    | some i =>
      simp only [hf] at h
      by_cases hlen : 4 * vSize ≤ (r.drop (i + 1)).length
      · simp only [hlen, if_true] at h
        cases hrec : splitEntries vSize n ((r.drop (i + 1)).drop (4 * vSize)) with
        | none => simp only [hrec] at h; cases h
        | some es1 =>
          simp only [hrec, Option.some.injEq] at h
          subst h
          unfold readLoop
          rw [readString_of_firstSpace r i hf]
          simp only [readFull_of_le _ _ hlen]
          rw [ih _ _ es1 hrec]
          rfl
      · rw [if_neg hlen] at h; cases h

/-- With vectors of at least one float, the loop fails on a body that ends
before all `n` entries are complete. -/
theorem readLoop_truncated (toWord : List Nat → String) (fromBits : Nat → α)
    (sqrt : α → α) (vSize : Nat) (hv : 0 < vSize) :
    ∀ (n : Nat) (r : List Nat) (vecs : Table α),
      splitEntries vSize n r = none →
      ∃ e, readLoop toWord fromBits sqrt vSize n r vecs = ⟨none, some e⟩ := by
  intro n
  induction n with
  | zero => intro r vecs h; simp [splitEntries] at h
  | succ n ih =>
    intro r vecs h
    unfold splitEntries at h
    unfold readLoop
    cases hf : firstSpace r with
    | none =>
      rw [readString_of_no_space r hf]
      obtain ⟨e, he⟩ := readFull_of_lt (4 * vSize) [] (by simp; omega)
      exact ⟨e, by simp only [he]⟩
    | some i =>
      simp only [hf] at h
      rw [readString_of_firstSpace r i hf]
      by_cases hlen : 4 * vSize ≤ (r.drop (i + 1)).length
      · simp only [hlen, if_true] at h
        simp only [readFull_of_le _ _ hlen]
        cases hrec : splitEntries vSize n ((r.drop (i + 1)).drop (4 * vSize)) with
        | none => exact ih _ _ hrec
        | some es1 => simp only [hrec] at h; cases h
      · obtain ⟨e, he⟩ := readFull_of_lt (4 * vSize) (r.drop (i + 1)) (by omega)
        exact ⟨e, by simp only [he]⟩

/-- Every vector of the table the loop returns was in the starting table or
is the normalized decoding of exactly `4 * vSize` bytes. -/
theorem readLoop_invariant (toWord : List Nat → String) (fromBits : Nat → α)
    (sqrt : α → α) (vSize : Nat) (P : List α → Prop)
    (hP : ∀ bytes : List Nat, bytes.length = 4 * vSize →
      P (normalize sqrt (decodeFloats fromBits bytes))) :
    ∀ (n : Nat) (r : List Nat) (vecs T : Table α),
      (∀ e ∈ vecs, P e.2) →
      (readLoop toWord fromBits sqrt vSize n r vecs).table = some T →
      ∀ e ∈ T, P e.2 := by
  intro n
  induction n with
  | zero =>
    intro r vecs T hvecs h
    simp only [readLoop, Option.some.injEq] at h
    subst h
    exact hvecs
  | succ n ih =>
    intro r vecs T hvecs h
    unfold readLoop at h
    by_cases hlen : 4 * vSize ≤ (readString 32 r).2.1.length
    · simp only [readFull_of_le _ _ hlen] at h
      refine ih _ _ T ?_ h
      intro e he
      rcases mem_mapSet _ _ e vecs he with h1 | h1
      · exact hvecs e h1
      · rw [h1]
        exact hP _ (by simp; omega)
    · obtain ⟨e, he⟩ := readFull_of_lt (4 * vSize) (readString 32 r).2.1 (by omega)
      simp [he] at h

/-- The loop returns a table and no error, or an error and no table. -/
theorem readLoop_shape (toWord : List Nat → String) (fromBits : Nat → α)
    (sqrt : α → α) (vSize : Nat) :
    ∀ (n : Nat) (r : List Nat) (vecs : Table α),
      (∃ T, readLoop toWord fromBits sqrt vSize n r vecs = ⟨some T, none⟩)
        ∨ (∃ e, readLoop toWord fromBits sqrt vSize n r vecs = ⟨none, some e⟩) := by
  intro n
  induction n with
  | zero => intro r vecs; exact Or.inl ⟨vecs, rfl⟩
  | succ n ih =>
    intro r vecs
    unfold readLoop
    cases hr : readFull (4 * vSize) (readString 32 r).2.1 with
    | error e => exact Or.inr ⟨e, rfl⟩
    | ok p => exact ih _ _

end Loop

/-! ### What the decoder stores -/

section Stored

variable [Zero α] [Add α] [Mul α] [Div α]

theorem splitEntries_length (vSize : Nat) :
    ∀ (n : Nat) (r : List Nat) (es : List (List Nat × List Nat)),
      splitEntries vSize n r = some es → es.length = n := by
  intro n
  induction n with
  | zero => intro r es h; simp only [splitEntries, Option.some.injEq] at h; subst h; rfl
  | succ n ih =>
    intro r es h
    unfold splitEntries at h
    cases hf : firstSpace r with
    | none => simp only [hf] at h; cases h
    | some i =>
      simp only [hf] at h
      by_cases hlen : 4 * vSize ≤ (r.drop (i + 1)).length
      · rw [if_pos hlen] at h
        cases hrec : splitEntries vSize n ((r.drop (i + 1)).drop (4 * vSize)) with
        | none => simp only [hrec] at h; cases h
        | some es1 =>
          simp only [hrec, Option.some.injEq] at h
          subst h
          simp [ih _ es1 hrec]
      · rw [if_neg hlen] at h; cases h

theorem storeAll_cons (toWord : List Nat → String) (fromBits : Nat → α) (sqrt : α → α)
    (e : List Nat × List Nat) (es : List (List Nat × List Nat)) (vecs : Table α) :
    storeAll toWord fromBits sqrt (e :: es) vecs
      = storeAll toWord fromBits sqrt es
          (mapSet vecs (toWord e.1) (normalize sqrt (decodeFloats fromBits e.2))) := rfl

theorem storeAll_nodupKeys (toWord : List Nat → String) (fromBits : Nat → α)
    (sqrt : α → α) (es : List (List Nat × List Nat)) :
    ∀ vecs : Table α, NodupKeys vecs → NodupKeys (storeAll toWord fromBits sqrt es vecs) := by
  induction es with
  | nil => intro vecs h; exact h
  | cons e es ih =>
    intro vecs h
    rw [storeAll_cons]
    exact ih _ (nodupKeys_mapSet vecs _ _ h)

theorem storeAll_length (toWord : List Nat → String) (fromBits : Nat → α)
    (sqrt : α → α) (es : List (List Nat × List Nat)) :
    ∀ vecs : Table α,
      (storeAll toWord fromBits sqrt es vecs).length ≤ vecs.length + es.length := by
  induction es with
  | nil => intro vecs; simp [storeAll]
  | cons e es ih =>
    intro vecs
    rw [storeAll_cons]
    have h1 := ih (mapSet vecs (toWord e.1) (normalize sqrt (decodeFloats fromBits e.2)))
    have h2 := length_mapSet (toWord e.1) (normalize sqrt (decodeFloats fromBits e.2)) vecs
    simp only [List.length_cons]
    omega

/-- A word looks up to the normalized vector of the last entry that carries
it, and to its old value when no entry carries it. -/
theorem storeAll_lookup (toWord : List Nat → String) (fromBits : Nat → α)
    (sqrt : α → α) (w : String) (es : List (List Nat × List Nat)) :
    ∀ vecs : Table α,
      (storeAll toWord fromBits sqrt es vecs).lookup w =
        match (decodeEntries toWord fromBits es).reverse.lookup w with
        | some raw => some (normalize sqrt raw)
        | none => vecs.lookup w := by
  induction es with
  | nil => intro vecs; simp [storeAll, decodeEntries]
  | cons e es ih =>
    intro vecs
    rw [storeAll_cons, ih]
    have hrev : (decodeEntries toWord fromBits (e :: es)).reverse
        = (decodeEntries toWord fromBits es).reverse
          ++ [(toWord e.1, decodeFloats fromBits e.2)] := by
      simp [decodeEntries]
    rw [hrev, List.lookup_append]
    cases hl : (decodeEntries toWord fromBits es).reverse.lookup w with
    | some raw => simp
    | none =>
      rw [lookup_mapSet]
      by_cases hw : w = toWord e.1
      · subst hw; simp [List.lookup]
      · have hb : (w == toWord e.1) = false := by simpa using hw
        simp [List.lookup, hw, hb]

end Stored

/-! ### Normalization over a field -/

section Normalize

/-- Every vector of a decoded table is a normalized vector of `vSize`
components. -/
theorem ReadVectors_stored [Zero α] [Add α] [Mul α] [Div α]
    (scan : List Nat → Option (Nat × List Nat)) (toWord : List Nat → String)
    (fromBits : Nat → α) (sqrt : α → α) (r r1 r2 : List Nat) (nWords vSize : Nat)
    (h1 : scan r = some (nWords, r1)) (h2 : scan r1 = some (vSize, r2)) (T : Table α)
    (hT : (ReadVectors scan toWord fromBits sqrt r).table = some T) :
    ∀ e ∈ T, ∃ raw : List α, raw.length = vSize ∧ e.2 = normalize sqrt raw := by
  simp only [ReadVectors, h1, h2] at hT
  refine readLoop_invariant toWord fromBits sqrt vSize
    (fun v => ∃ raw : List α, raw.length = vSize ∧ v = normalize sqrt raw) ?_
    nWords r2 [] T (by simp) hT
  intro bytes hb
  exact ⟨_, decodeFloats_length fromBits vSize bytes hb, rfl⟩

end Normalize

end DecoderLemmas

/-! ## Settled claims: the decoder -/

section DecoderClaims

variable {α : Type}

/-- C11 at a failing input: the stream `"2 0\ncat "` declares `nWords = 2`
and `vSize = 0` and holds the data of one word only (its body does not split
into two entries), yet `ReadVectors` returns a table, with an entry for the
empty word, and a `nil` error. -/
theorem ReadVectors_short_stream :
    scanDecimal shortStream = some (2, [32, 48, 10, 99, 97, 116, 32])
      ∧ scanDecimal [32, 48, 10, 99, 97, 116, 32] = some (0, [10, 99, 97, 116, 32])
      ∧ splitEntries 0 2 [10, 99, 97, 116, 32] = none
      ∧ ReadVectors scanDecimal asciiWord bitsAsRat sqrtSmall shortStream
          = ⟨some [("cat", []), ("", [])], none⟩ := by
  decide

/-- With `vSize = 0` the loop of `ReadVectors` never fails, whatever the
stream holds: the unchecked error of `ReadString` is never noticed. -/
theorem readLoop_no_floats [Zero α] [Add α] [Mul α] [Div α] (toWord : List Nat → String)
    (fromBits : Nat → α) (sqrt : α → α) :
    ∀ (n : Nat) (r : List Nat) (vecs : Table α),
      ∃ T, readLoop toWord fromBits sqrt 0 n r vecs = ⟨some T, none⟩ := by
  intro n
  induction n with
  | zero => intro r vecs; exact ⟨vecs, rfl⟩
  | succ n ih =>
    intro r vecs
    unfold readLoop
    simp only [readFull_of_le (4 * 0) _ (Nat.zero_le _)]
    exact ih _ _

/-- With `vSize > 0`, a stream whose header parses and whose body ends before
all `nWords` entries are complete makes `ReadVectors` return an error and no
table. -/
theorem ReadVectors_truncated [Zero α] [Add α] [Mul α] [Div α]
    (scan : List Nat → Option (Nat × List Nat)) (toWord : List Nat → String)
    (fromBits : Nat → α) (sqrt : α → α) (r r1 r2 : List Nat) (nWords vSize : Nat)
    (h1 : scan r = some (nWords, r1)) (h2 : scan r1 = some (vSize, r2))
    (hv : 0 < vSize) (htrunc : splitEntries vSize nWords r2 = none) :
    ∃ e, ReadVectors scan toWord fromBits sqrt r = ⟨none, some e⟩ := by
  simp only [ReadVectors, h1, h2]
  exact readLoop_truncated toWord fromBits sqrt vSize hv nWords r2 [] htrunc

/-- C12: for every well-formed stream (the header parses as `nWords` and
`vSize`, the body holds `nWords` complete entries), `ReadVectors` returns a
table with unique keys in which every word looks up to the normalized vector
of the last entry carrying that word; its keys are exactly the words that
occur in the stream, and it has at most `nWords` entries. -/
theorem ReadVectors_last_wins [Zero α] [Add α] [Mul α] [Div α]
    (scan : List Nat → Option (Nat × List Nat)) (toWord : List Nat → String)
    (fromBits : Nat → α) (sqrt : α → α) (r r1 r2 : List Nat) (nWords vSize : Nat)
    (es : List (List Nat × List Nat))
    (h1 : scan r = some (nWords, r1)) (h2 : scan r1 = some (vSize, r2))
    (hes : splitEntries vSize nWords r2 = some es) :
    ∃ T, ReadVectors scan toWord fromBits sqrt r = ⟨some T, none⟩
      ∧ NodupKeys T
      ∧ (∀ w, T.lookup w
          = ((decodeEntries toWord fromBits es).reverse.lookup w).map (normalize sqrt))
      ∧ (∀ w, w ∈ keys T ↔ w ∈ keys (decodeEntries toWord fromBits es))
      ∧ T.length ≤ nWords := by
  have hlook : ∀ w, (storeAll toWord fromBits sqrt es []).lookup w
      = ((decodeEntries toWord fromBits es).reverse.lookup w).map (normalize sqrt) := by
    intro w
    rw [storeAll_lookup]
    cases (decodeEntries toWord fromBits es).reverse.lookup w <;> rfl
  refine ⟨storeAll toWord fromBits sqrt es [], ?_, ?_, hlook, ?_, ?_⟩
  · simp only [ReadVectors, h1, h2]
    exact readLoop_complete toWord fromBits sqrt vSize nWords r2 [] es hes
  · exact storeAll_nodupKeys toWord fromBits sqrt es [] (by simp [NodupKeys, keys])
  · intro w
    have hk1 := lookup_eq_none_iff_not_key (storeAll toWord fromBits sqrt es []) w
    have hk2 := lookup_eq_none_iff_not_key (decodeEntries toWord fromBits es).reverse w
    have hrev : w ∈ keys (decodeEntries toWord fromBits es).reverse
        ↔ w ∈ keys (decodeEntries toWord fromBits es) := by
      simp [keys]
    rw [← hrev]
    rw [hlook w] at hk1
    constructor
    · intro hw
      by_contra hc
      have hnone := hk2.mpr hc
      rw [hnone] at hk1
      exact (hk1.mp rfl) hw
    · intro hw
      by_contra hc
      have hnone := hk1.mpr hc
      have hnone2 : (decodeEntries toWord fromBits es).reverse.lookup w = none := by
        cases hl : (decodeEntries toWord fromBits es).reverse.lookup w with
        | none => rfl
        | some v => rw [hl] at hnone; simp at hnone
      exact (hk2.mp hnone2) hw
  · have hlen := storeAll_length toWord fromBits sqrt es []
    rw [splitEntries_length vSize nWords r2 es hes] at hlen
    simpa using hlen

/-- C13: when `ReadVectors` succeeds on a stream whose header gives `vSize`,
every vector stored in the returned table has length exactly `vSize`, so all
vectors of the table have the same length. -/
theorem ReadVectors_vector_lengths [Zero α] [Add α] [Mul α] [Div α]
    (scan : List Nat → Option (Nat × List Nat)) (toWord : List Nat → String)
    (fromBits : Nat → α) (sqrt : α → α) (r r1 r2 : List Nat) (nWords vSize : Nat)
    (h1 : scan r = some (nWords, r1)) (h2 : scan r1 = some (vSize, r2)) (T : Table α)
    (hT : ReadVectors scan toWord fromBits sqrt r = ⟨some T, none⟩) :
    (∀ e ∈ T, e.2.length = vSize) ∧ EqualLength T := by
  have hall : ∀ e ∈ T, e.2.length = vSize := by
    intro e he
    obtain ⟨raw, hraw, hEq⟩ := ReadVectors_stored scan toWord fromBits sqrt r r1 r2 nWords
      vSize h1 h2 T (by rw [hT]) e he
    rw [hEq, normalize_length, hraw]
  exact ⟨hall, fun a ha b hb => (hall a ha).trans (hall b hb).symm⟩

/-- The sample stream decoded: three entries, the word `ab` twice; the table
holds the normalized vector of its last entry. -/
theorem goodStream_decoded :
    scanDecimal goodStream = some (3, goodStream.drop 1)
      ∧ scanDecimal (goodStream.drop 1) = some (2, goodStream.drop 3)
      ∧ splitEntries 2 3 (goodStream.drop 3)
          = some [([10, 97, 98, 32], [3, 0, 0, 0, 4, 0, 0, 0]),
              ([10, 99, 32], [0, 0, 0, 0, 2, 0, 0, 0]),
              ([10, 97, 98, 32], [1, 0, 0, 0, 0, 0, 0, 0])]
      ∧ ReadVectors scanDecimal asciiWord bitsAsRat sqrtSmall goodStream
          = ⟨some [("ab", [1, 0]), ("c", [0, 1])], none⟩ := by
  have h1 : scanDecimal goodStream = some (3, goodStream.drop 1) := by decide
  have h2 : scanDecimal (goodStream.drop 1) = some (2, goodStream.drop 3) := by decide
  have h3 : splitEntries 2 3 (goodStream.drop 3)
      = some [([10, 97, 98, 32], [3, 0, 0, 0, 4, 0, 0, 0]),
          ([10, 99, 32], [0, 0, 0, 0, 2, 0, 0, 0]),
          ([10, 97, 98, 32], [1, 0, 0, 0, 0, 0, 0, 0])] := by decide
  refine ⟨h1, h2, h3, ?_⟩
  simp only [ReadVectors, h1, h2]
  rw [readLoop_complete asciiWord bitsAsRat sqrtSmall 2 3 _ [] _ h3]
  have w1 : asciiWord [10, 97, 98, 32] = "ab" := by decide
  have w2 : asciiWord [10, 99, 32] = "c" := by decide
  simp only [storeAll, List.foldl, w1, w2, decodeFloats, bitsAsRat, mapSet]
  norm_num [sqrtSmall, mapSet, normalize, sumSquares]

/-- C12 at the sample stream: the word `ab` occurs in the first and in the
third entry, and the table holds the vector of the third. -/
theorem ReadVectors_last_wins_witness :
    ReadVectors scanDecimal asciiWord bitsAsRat sqrtSmall goodStream
        = ⟨some [("ab", [1, 0]), ("c", [0, 1])], none⟩
      ∧ ∃ T, ReadVectors scanDecimal asciiWord bitsAsRat sqrtSmall goodStream = ⟨some T, none⟩
        ∧ NodupKeys T
        ∧ (∀ w, T.lookup w
            = ((decodeEntries asciiWord bitsAsRat
                [([10, 97, 98, 32], [3, 0, 0, 0, 4, 0, 0, 0]),
                 ([10, 99, 32], [0, 0, 0, 0, 2, 0, 0, 0]),
                 ([10, 97, 98, 32], [1, 0, 0, 0, 0, 0, 0, 0])]).reverse.lookup w).map
                (normalize sqrtSmall))
        ∧ (∀ w, w ∈ keys T ↔ w ∈ keys (decodeEntries asciiWord bitsAsRat
                [([10, 97, 98, 32], [3, 0, 0, 0, 4, 0, 0, 0]),
                 ([10, 99, 32], [0, 0, 0, 0, 2, 0, 0, 0]),
                 ([10, 97, 98, 32], [1, 0, 0, 0, 0, 0, 0, 0])]))
        ∧ T.length ≤ 3 :=
  ⟨goodStream_decoded.2.2.2,
    ReadVectors_last_wins scanDecimal asciiWord bitsAsRat sqrtSmall goodStream
      (goodStream.drop 1) (goodStream.drop 3) 3 2 _ goodStream_decoded.1
      goodStream_decoded.2.1 goodStream_decoded.2.2.1⟩

/-- C13 at the sample stream: both stored vectors have length `vSize = 2`. -/
theorem ReadVectors_vector_lengths_witness :
    ReadVectors scanDecimal asciiWord bitsAsRat sqrtSmall goodStream
        = ⟨some [("ab", [1, 0]), ("c", [0, 1])], none⟩
      ∧ (∀ e ∈ ([("ab", [1, 0]), ("c", [0, 1])] : Table ℚ), e.2.length = 2)
      ∧ EqualLength ([("ab", [1, 0]), ("c", [0, 1])] : Table ℚ) :=
  ⟨goodStream_decoded.2.2.2,
    ReadVectors_vector_lengths scanDecimal asciiWord bitsAsRat sqrtSmall goodStream
      (goodStream.drop 1) (goodStream.drop 3) 3 2 goodStream_decoded.1
      goodStream_decoded.2.1 _ goodStream_decoded.2.2.2⟩

end DecoderClaims

/-! ## Settled claims: the insertion position and the bounded insertion -/

section InsertionClaims

variable {α : Type} [LinearOrder α]

/-- C15 as amended: with scores taken in a total order (no NaN), on a result
buffer sorted non-increasing by score and a new score `d`, the position `ip`
computed by `sort.Search` is the least index whose
score is at most `d`, or the length of the buffer if there is none; every
entry before `ip` has a score strictly greater than `d`, every entry from
`ip` on a score at most `d`. -/
theorem Search_insertion_position (buf : List (WordDistance α)) (d : α)
    (hs : NonIncreasing buf) :
    ∃ ip, Search buf.length (searchPred buf d) = some ip
      ∧ ip ≤ buf.length
      ∧ (∀ (i : Nat) (x : WordDistance α), buf[i]? = some x → x.Distance ≤ d → ip ≤ i)
      ∧ (ip < buf.length → ∃ x, buf[ip]? = some x ∧ x.Distance ≤ d)
      ∧ ((∀ (i : Nat) (x : WordDistance α), buf[i]? = some x → ¬ x.Distance ≤ d)
          → ip = buf.length)
      ∧ (∀ (i : Nat) (x : WordDistance α), i < ip → buf[i]? = some x → d < x.Distance)
      ∧ (∀ (i : Nat) (x : WordDistance α), ip ≤ i → buf[i]? = some x → x.Distance ≤ d) := by
  obtain ⟨ip, hip, hle, hlo, hhi⟩ := Search_buffer buf d hs
  have hat : ip < buf.length → ∃ x, buf[ip]? = some x ∧ x.Distance ≤ d := by
    intro hlt
    exact ⟨buf[ip], List.getElem?_eq_getElem hlt,
      hhi ip _ (Nat.le_refl _) (List.getElem?_eq_getElem hlt)⟩
  refine ⟨ip, hip, hle, ?_, hat, ?_, ?_, hhi⟩
  · intro i x hx hxd
    by_contra hc
    exact hlo i x (by omega) hx hxd
  · intro hnone
    by_contra hc
    obtain ⟨x, hx, hxd⟩ := hat (by omega)
    exact hnone ip x hx hxd
  · intro i x hi hx
    exact lt_of_not_le (hlo i x hi hx)

/-- C15 at a concrete buffer: in `[5, 3, 3, 1]` the position for score `3` is
`1`, the first of the two entries with score `3`. -/
theorem Search_insertion_position_witness :
    NonIncreasing ([⟨"a", 5⟩, ⟨"b", 3⟩, ⟨"c", 3⟩, ⟨"d", 1⟩] : List (WordDistance ℤ))
      ∧ Search 4 (searchPred ([⟨"a", 5⟩, ⟨"b", 3⟩, ⟨"c", 3⟩, ⟨"d", 1⟩] :
          List (WordDistance ℤ)) 3) = some 1
      ∧ ∃ ip, Search ([⟨"a", 5⟩, ⟨"b", 3⟩, ⟨"c", 3⟩, ⟨"d", 1⟩] :
            List (WordDistance ℤ)).length
          (searchPred ([⟨"a", 5⟩, ⟨"b", 3⟩, ⟨"c", 3⟩, ⟨"d", 1⟩] : List (WordDistance ℤ)) 3)
            = some ip
        ∧ ip ≤ ([⟨"a", 5⟩, ⟨"b", 3⟩, ⟨"c", 3⟩, ⟨"d", 1⟩] : List (WordDistance ℤ)).length :=
  have hs : NonIncreasing ([⟨"a", 5⟩, ⟨"b", 3⟩, ⟨"c", 3⟩, ⟨"d", 1⟩] :
      List (WordDistance ℤ)) := by
    rw [nonIncreasing_iff_sorted]
    decide
  ⟨hs, by decide,
    (Search_insertion_position _ 3 hs).imp (fun _ h => ⟨h.1, h.2.1⟩)⟩

variable [Zero α] [Add α] [Mul α]

/-- C17: for every slice `s`, limit, index and value with `len(s) ≤ limit`,
`index ≤ len(s)` and `index < limit`, `insertWithLimit` returns the first
`limit` elements of `s[0..index) ++ [value] ++ s[index..]`: entries before
`index` are unchanged, `value` sits at `index`, lower-ranked entries move
down by one, the length grows by one if `len(s) < limit`, and the last entry
is lost if `len(s) = limit`; and one step of `distance` leaves the buffer
unchanged when the insertion position is at least `limit`. -/
theorem insertWithLimit_spec (s : List (WordDistance α)) (limit : Int) (index : Nat)
    (value : WordDistance α) (hlen : (s.length : Int) ≤ limit) (hidx : index ≤ s.length)
    (hlt : (index : Int) < limit) :
    (∃ r, insertWithLimit s limit (index : Int) value = some r
      ∧ r = (s.take index ++ value :: s.drop index).take limit.toNat
      ∧ (∀ i, i < index → r[i]? = s[i]?)
      ∧ r[index]? = some value
      ∧ (∀ i, index ≤ i → ((i : Int) + 1 < limit) → r[i + 1]? = s[i]?)
      ∧ ((s.length : Int) < limit → r.length = s.length + 1)
      ∧ ((s.length : Int) = limit → r.length = s.length
          ∧ r = (s.take index ++ value :: s.drop index).dropLast))
    ∧ (∀ (vec : List α) (skips : List String) (results : List (WordDistance α))
        (entry : String × List α) (dist : α) (ip : Nat),
        dotProduct vec entry.2 = some dist →
        Search results.length (searchPred results dist) = some ip →
        limit ≤ (ip : Int) →
        distanceStep vec skips limit results entry = some results) := by
  constructor
  · refine ⟨_, insertWithLimit_eq s limit index value hlen hidx hlt, rfl, ?_, ?_, ?_, ?_, ?_⟩
    · intro i hi
      have h1 : i < limit.toNat := by omega
      rw [List.getElem?_take_of_lt h1, List.getElem?_append_left (by simp; omega)]
      exact List.getElem?_take_of_lt hi
    · have h1 : index < limit.toNat := by omega
      rw [List.getElem?_take_of_lt h1, List.getElem?_append_right (by simp)]
      simp [Nat.min_eq_left hidx]
    · intro i hi hil
      have h1 : i + 1 < limit.toNat := by omega
      rw [List.getElem?_take_of_lt h1, List.getElem?_append_right (by simp; omega)]
      have h2 : i + 1 - (List.take index s).length = (i - index) + 1 := by
        simp [Nat.min_eq_left hidx]; omega
      rw [h2, List.getElem?_cons_succ, List.getElem?_drop]
      congr 1
      omega
    · intro hgrow
      simp only [List.length_take, List.length_append, List.length_cons, List.length_drop]
      omega
    · intro hfull
      constructor
      · simp only [List.length_take, List.length_append, List.length_cons, List.length_drop]
        omega
      · rw [List.dropLast_eq_take]
        congr 1
        simp only [List.length_take, List.length_append, List.length_cons, List.length_drop]
        omega
  · intro vec skips results entry dist ip hd hsearch hge
    unfold distanceStep
    by_cases hskip : entry.1 ∈ skips
    · simp [hskip]
    · simp only [hskip, if_false, hd, hsearch]
      rw [if_neg (by omega)]

/-- C17 at concrete slices: below the limit the slice grows, at the limit the
last entry is lost. -/
theorem insertWithLimit_spec_witness :
    insertWithLimit ([⟨"a", 5⟩, ⟨"b", 3⟩] : List (WordDistance ℤ)) 3 1 ⟨"c", 4⟩
        = some [⟨"a", 5⟩, ⟨"c", 4⟩, ⟨"b", 3⟩]
      ∧ insertWithLimit ([⟨"a", 5⟩, ⟨"b", 3⟩] : List (WordDistance ℤ)) 2 1 ⟨"c", 4⟩
        = some [⟨"a", 5⟩, ⟨"c", 4⟩]
      ∧ ∃ r, insertWithLimit ([⟨"a", 5⟩, ⟨"b", 3⟩] : List (WordDistance ℤ)) 2
            ((1 : Nat) : Int) ⟨"c", 4⟩ = some r
        ∧ r = (([⟨"a", 5⟩, ⟨"b", 3⟩] : List (WordDistance ℤ)).take 1
            ++ ⟨"c", 4⟩ :: ([⟨"a", 5⟩, ⟨"b", 3⟩] : List (WordDistance ℤ)).drop 1).take
              (2 : Int).toNat :=
  ⟨by decide, by decide,
    (insertWithLimit_spec ([⟨"a", 5⟩, ⟨"b", 3⟩] : List (WordDistance ℤ)) 2 1 ⟨"c", 4⟩
      (by decide) (by decide) (by decide)).1.imp (fun _ h => ⟨h.1, h.2.1⟩)⟩

end InsertionClaims

/-! ## Settled claims: ties -/

section Ties

variable {α : Type}

theorem pair_sublist_cons {β : Type} (a b c : β) (l : List β)
    (h : List.Sublist [a, b] (c :: l)) : List.Sublist [a, b] l ∨ (a = c ∧ b ∈ l) := by
  cases h with
  | cons _ h1 => exact Or.inl h1
  | cons₂ _ h1 => exact Or.inr ⟨rfl, List.singleton_sublist.mp h1⟩

/-- In a list without duplicates two elements occur in one order only. -/
theorem not_both_orders {β : Type} (a b : β) :
    ∀ l : List β, l.Nodup → List.Sublist [a, b] l → List.Sublist [b, a] l → False := by
  intro l
  induction l with
  | nil => intro _ h _; cases h
  | cons c l ih =>
    intro hn h1 h2
    have hc : c ∉ l := (List.nodup_cons.mp hn).1
    have hl : l.Nodup := (List.nodup_cons.mp hn).2
    rcases pair_sublist_cons a b c l h1 with s1 | ⟨e1, m1⟩
    · rcases pair_sublist_cons b a c l h2 with s2 | ⟨e2, m2⟩
      · exact ih hl s1 s2
      · exact hc (e2 ▸ (s1.subset (by simp)))
    · rcases pair_sublist_cons b a c l h2 with s2 | ⟨e2, m2⟩
      · exact hc (e1 ▸ (s2.subset (by simp)))
      · exact hc (e2 ▸ m1)

/-- A relation that holds between the new element and the elements it is
put before, and vacuously for those it is put behind, survives the ordered
insertion. -/
theorem pairwise_orderedInsert {β : Type} (r : β → β → Prop) [DecidableRel r]
    (R : β → β → Prop) (c : β) :
    ∀ l : List β, l.Pairwise R → (∀ y ∈ l, R c y) → (∀ a ∈ l, ¬ r c a → R a c) →
      (l.orderedInsert r c).Pairwise R := by
  intro l
  induction l with
  | nil => intro _ _ _; simp
  | cons b l ih =>
    intro hp h1 h2
    have hbl : ∀ z ∈ l, R b z := (List.pairwise_cons.mp hp).1
    have hl : l.Pairwise R := (List.pairwise_cons.mp hp).2
    by_cases hr : r c b
    · simp only [List.orderedInsert, hr, if_true]
      exact List.pairwise_cons.mpr ⟨h1, hp⟩
    · simp only [List.orderedInsert, hr, if_false]
      refine List.pairwise_cons.mpr ⟨?_, ih hl (fun y hy => h1 y (List.mem_cons_of_mem _ hy))
        (fun a ha => h2 a (List.mem_cons_of_mem _ ha))⟩
      intro z hz
      rcases (List.mem_orderedInsert r).mp hz with hzc | hzl
      · rw [hzc]
        exact h2 b (List.mem_cons_self _ _) hr
      · exact hbl z hzl

variable [LinearOrder α]

/-- Between two results with equal scores, the one in the earlier slot was
inserted later. -/
theorem fold_ties (k : Nat) (cs : List (WordDistance α)) :
    ∀ (pre buf : List (WordDistance α)),
      buf.Pairwise (fun x y => x.Distance = y.Distance → List.Sublist [y, x] pre) →
      (∀ x ∈ buf, x ∈ pre) →
      (cs.foldl (boundedInsert k) buf).Pairwise
        (fun x y => x.Distance = y.Distance → List.Sublist [y, x] (pre ++ cs)) := by
  induction cs with
  | nil => intro pre buf hp _; simpa using hp
  | cons c cs ih =>
    intro pre buf hp hmem
    rw [List.foldl_cons]
    have hstep := ih (pre ++ [c]) (boundedInsert k buf c) ?_ ?_
    · simpa using hstep
    · refine List.Pairwise.sublist (List.take_sublist _ _) ?_
      apply pairwise_orderedInsert
      · exact hp.imp (fun h heq => List.sublist_append_of_sublist_left (h heq))
      · intro y hy _
        exact List.Sublist.append (List.singleton_sublist.mpr (hmem y hy))
          (List.Sublist.refl [c])
      · intro a _ hra heq
        exact absurd (le_of_eq heq) hra
    · intro x hx
      have hx2 := (boundedInsert_subperm k buf c).subset hx
      rcases List.mem_cons.mp hx2 with h | h
      · simp [h]
      · exact List.mem_append_left _ (hmem x h)

variable [Zero α] [Add α] [Mul α]

/-- C16 refuted as stated: in `Distance(sample, "cat", 2)` the entries `dog`
and `eel` both score `24` and both appear in the result; `dog` is visited
first, yet `eel` holds slot `0` and `dog` slot `1`.  So it is not true that
of two equal-scored results the one visited first holds the earlier slot. -/
theorem tie_first_arrival_refuted :
    (distance sample [3, 4] ["cat"] 2 = some ⟨some [⟨"eel", 24⟩, ⟨"dog", 24⟩], none⟩
      ∧ VisitedBefore sample "dog" "eel")
    ∧ ¬ (∀ (vecs : Table ℤ) (vec : List ℤ) (skips : List String) (limit : Int)
          (r : List (WordDistance ℤ)) (i j : Nat) (x y : WordDistance ℤ),
          distance vecs vec skips limit = some ⟨some r, none⟩ →
          r[i]? = some x → r[j]? = some y → x.Distance = y.Distance →
          VisitedBefore vecs x.Word y.Word → i < j) := by
  have hd : distance sample [3, 4] ["cat"] 2
      = some ⟨some [⟨"eel", 24⟩, ⟨"dog", 24⟩], none⟩ := by decide
  have hv : VisitedBefore sample "dog" "eel" := by
    unfold VisitedBefore
    decide
  refine ⟨⟨hd, hv⟩, ?_⟩
  intro hall
  have hlt := hall sample [3, 4] ["cat"] 2 [⟨"eel", 24⟩, ⟨"dog", 24⟩] 1 0
    ⟨"dog", 24⟩ ⟨"eel", 24⟩ hd rfl rfl rfl hv
  omega

/-- C16 as amended: with scores taken in a total order (no NaN), on a table
with unique keys, of two entries with equal scores that both appear in the
result of `distance`, the one visited later
by the scan holds the earlier, higher-ranked slot: a new entry is inserted
before the entries of equal score already in the buffer. -/
theorem tie_later_arrival_first (vecs : Table α) (hn : NodupKeys vecs) (vec : List α)
    (skips : List String) (limit : Int) (r : List (WordDistance α)) (i j : Nat)
    (x y : WordDistance α) (h : distance vecs vec skips limit = some ⟨some r, none⟩)
    (hx : r[i]? = some x) (hy : r[j]? = some y) (heq : x.Distance = y.Distance)
    (hv : VisitedBefore vecs x.Word y.Word) : j < i := by
  obtain ⟨cs, hcs, hret⟩ := distance_returned vecs vec skips limit _ h
  simp only [SearchReturn.mk.injEq, Option.some.injEq, and_true] at hret
  have hties := fold_ties limit.toNat cs [] [] List.Pairwise.nil (by simp)
  rw [← hret, List.nil_append] at hties
  have hkeys : List.Sublist (words cs) (keys vecs) := by
    rw [candidates_words vec skips vecs cs hcs]
    exact List.Sublist.map _ (List.filter_sublist _)
  by_contra hc
  rcases Nat.lt_or_ge i j with hlt | hge
  · obtain ⟨hi, hxi⟩ := List.getElem?_eq_some_iff.mp hx
    obtain ⟨hj, hyj⟩ := List.getElem?_eq_some_iff.mp hy
    have hR := (List.pairwise_iff_getElem.mp hties) i j hi hj hlt
    rw [hxi, hyj] at hR
    have hsub : List.Sublist [y.Word, x.Word] (keys vecs) :=
      (List.Sublist.map WordDistance.Word (hR heq)).trans hkeys
    exact not_both_orders x.Word y.Word (keys vecs) hn hv hsub
  · have hij : i = j := by omega
    subst hij
    rw [hx] at hy
    have hxy : x = y := Option.some.inj hy
    subst hxy
    have hdup : ([x.Word, x.Word] : List String).Nodup := List.Nodup.sublist hv hn
    simp at hdup

/-- C16 as amended, at the concrete table: `dog` is visited before `eel`,
both score `24`, and `eel` holds slot `0`, before `dog` in slot `1`. -/
theorem tie_later_arrival_first_witness :
    (NodupKeys sample
      ∧ distance sample [3, 4] ["cat"] 2 = some ⟨some [⟨"eel", 24⟩, ⟨"dog", 24⟩], none⟩
      ∧ VisitedBefore sample "dog" "eel")
    ∧ 0 < 1 :=
  ⟨⟨by unfold NodupKeys; decide, by decide, by unfold VisitedBefore; decide⟩,
    tie_later_arrival_first sample (by unfold NodupKeys; decide) [3, 4] ["cat"] 2
      [⟨"eel", 24⟩, ⟨"dog", 24⟩] 1 0 ⟨"dog", 24⟩ ⟨"eel", 24⟩ (by decide) rfl rfl rfl
      (by unfold VisitedBefore; decide)⟩

end Ties

/-! ## Settled claims: index safety -/

section Safety

variable {α : Type}

/-- The loop of `sort.Search` on `[i, j)` with `j ≤ n` only evaluates the
predicate below `n`. -/
theorem searchLoop_congr (f g : Nat → Option Bool) (n : Nat)
    (hfg : ∀ i, i < n → f i = g i) :
    ∀ (fuel i j : Nat), j ≤ n → searchLoop f fuel i j = searchLoop g fuel i j := by
  intro fuel
  induction fuel with
  | zero => intro i j _; rfl
  | succ fuel ih =>
    intro i j hj
    unfold searchLoop
    by_cases hlt : i < j
    · have hh : (i + j) / 2 < n := by omega
      simp only [hlt, if_true, hfg _ hh]
      rw [ih _ _ hj, ih _ _ (by omega : (i + j) / 2 ≤ n)]
    · simp only [hlt, if_false]

theorem Search_congr (f g : Nat → Option Bool) (n : Nat) (hfg : ∀ i, i < n → f i = g i) :
    Search n f = Search n g :=
  searchLoop_congr f g n hfg n 0 n (Nat.le_refl n)

variable [LinearOrder α] [Zero α] [Add α] [Mul α]

/-- Every buffer the scan reaches is sorted and within the limit. -/
theorem distanceLoop_reachable (vec : List α) (skips : List String) (limit : Int)
    (vecs : Table α) (buf : List (WordDistance α))
    (h : distanceLoop vec skips limit vecs [] = some buf) :
    NonIncreasing buf ∧ buf.length ≤ limit.toNat := by
  rw [distanceLoop_eq vec skips limit vecs [] nonIncreasing_nil (by simp)] at h
  cases hcs : candidates vec skips vecs with
  | none => simp [hcs] at h
  | some cs =>
    simp only [hcs, Option.some.injEq] at h
    subst h
    refine ⟨fold_nonIncreasing _ cs [] nonIncreasing_nil, ?_⟩
    rw [fold_length _ cs [] (by simp)]
    omega

/-- C18: on a table of equal-length vectors, `Distance` and `Analogy` return
for all words and all limits, zero and negative ones included: no index or
slice bound is out of range.  In particular the accesses `w[idx]` of
`dotProduct`, `minus` and `plus` on vectors of the table are in range,
`sort.Search` only evaluates its predicate below `len(results)`, and every
call of `insertWithLimit` from `distance` has `index ≤ len(slice) ≤ limit`
and `index < limit`, and succeeds.  Without the precondition there is a
table with a query vector longer than another entry's vector on which the
index access of `dotProduct` is out of range. -/
theorem no_index_out_of_range [Sub α] (vecs : Table α) (heq : EqualLength vecs) :
    (∀ w k, ∃ ret, Distance vecs w k = some ret)
    ∧ (∀ w1 w2 w3 k, ∃ ret, Analogy vecs w1 w2 w3 k = some ret)
    ∧ (∀ e1 ∈ vecs, ∀ e2 ∈ vecs,
        (dotProduct e1.2 e2.2).isSome = true ∧ (minus e1.2 e2.2).isSome = true
          ∧ (plus e1.2 e2.2).isSome = true)
    ∧ (∀ (n : Nat) (f g : Nat → Option Bool),
        (∀ i, i < n → f i = g i) → Search n f = Search n g)
    ∧ (∀ (vec : List α) (skips : List String) (limit : Int) (n : Nat)
        (buf : List (WordDistance α)),
        distanceLoop vec skips limit (vecs.take n) [] = some buf →
        ∀ d : α, ∃ ip, Search buf.length (searchPred buf d) = some ip
          ∧ ip ≤ buf.length
          ∧ ((ip : Int) < limit →
              (buf.length : Int) ≤ limit
                ∧ ∀ v, ∃ r, insertWithLimit buf limit (ip : Int) v = some r))
    ∧ (∃ (T : Table ℤ) (w : String) (k : Int) (v : List ℤ),
        w ∈ keys T ∧ T.lookup w = some v ∧ (∃ e ∈ T, dotProduct v e.2 = none)
          ∧ Distance T w k = none) := by
  refine ⟨?_, ?_, ?_, fun n f g h => Search_congr f g n h, ?_, ?_⟩
  · intro w k
    cases hl : vecs.lookup w with
    | none => exact ⟨⟨none, some (unknownWord w)⟩, by simp only [Distance, hl]⟩
    | some v =>
      rw [Distance_of_lookup vecs w k v hl]
      obtain ⟨cs, _, hd⟩ := distance_of_fits vecs v [w] k
        (queryFits_of_equalLength vecs heq w v (lookup_mem vecs w v hl) [w])
      exact ⟨_, hd⟩
  · intro w1 w2 w3 k
    cases hl1 : vecs.lookup w1 with
    | none => exact ⟨⟨none, some (unknownWord w1)⟩, by simp only [Analogy, hl1]⟩
    | some v1 =>
      cases hl2 : vecs.lookup w2 with
      | none => exact ⟨⟨none, some (unknownWord w2)⟩, by simp only [Analogy, hl1, hl2]⟩
      | some v2 =>
        cases hl3 : vecs.lookup w3 with
        | none =>
          exact ⟨⟨none, some (unknownWord w3)⟩, by simp only [Analogy, hl1, hl2, hl3]⟩
        | some v3 =>
          obtain ⟨hA, hfit⟩ :=
            Analogy_of_equalLength vecs heq w1 w2 w3 k v1 v2 v3 hl1 hl2 hl3
          obtain ⟨cs, _, hd⟩ := distance_of_fits vecs _ [w1, w2, w3] k hfit
          exact ⟨_, hA.trans hd⟩
  · intro e1 he1 e2 he2
    have hlen : e1.2.length ≤ e2.2.length := le_of_eq (heq e1 he1 e2 he2)
    refine ⟨(dotProduct_isSome _ _).mpr hlen, ?_, ?_⟩
    · rw [minus_eq _ _ hlen]; rfl
    · rw [plus_eq _ _ hlen]; rfl
  · intro vec skips limit n buf h d
    obtain ⟨hs, hlen⟩ := distanceLoop_reachable vec skips limit _ buf h
    obtain ⟨ip, hip, hle, _, _⟩ := Search_buffer buf d hs
    refine ⟨ip, hip, hle, ?_⟩
    intro hlt
    have hlen2 : (buf.length : Int) ≤ limit := by omega
    exact ⟨hlen2, fun v => ⟨_, insertWithLimit_eq buf limit ip v hlen2 hle hlt⟩⟩
  · exact ⟨[("a", [1, 2]), ("b", [1])], "a", 1, [1, 2], by decide, by decide,
      ⟨("b", [1]), by decide, by decide⟩, by decide⟩

/-- C18 at a concrete table of equal-length vectors: `Distance` and `Analogy`
return, also for limit `0` and a negative limit. -/
theorem no_index_out_of_range_witness :
    EqualLength sample
      ∧ (∃ ret, Distance sample "cat" 0 = some ret)
      ∧ (∃ ret, Analogy sample "cat" "dog" "fish" (-1) = some ret) :=
  ⟨by simp [EqualLength, sample],
    (no_index_out_of_range sample (by simp [EqualLength, sample])).1 "cat" 0,
    (no_index_out_of_range sample (by simp [EqualLength, sample])).2.1 "cat" "dog" "fish" (-1)⟩

end Safety

/-! ## Settled claims: independence of the iteration order -/

section OrderIndependence

variable {α : Type}

theorem eq_of_map_eq_of_inj {β γ : Type} (f : β → γ) :
    ∀ (l1 l2 : List β), l1.map f = l2.map f →
      (∀ x ∈ l1, ∀ y ∈ l2, f x = f y → x = y) → l1 = l2 := by
  intro l1
  induction l1 with
  | nil => intro l2 h _; cases l2 with
    | nil => rfl
    | cons b l2 => simp at h
  | cons a l1 ih =>
    intro l2 h hinj
    cases l2 with
    | nil => simp at h
    | cons b l2 =>
      simp only [List.map_cons, List.cons.injEq] at h
      have hab : a = b := hinj a (List.mem_cons_self _ _) b (List.mem_cons_self _ _) h.1
      rw [hab, ih l2 h.2 (fun x hx y hy => hinj x (List.mem_cons_of_mem _ hx) y
        (List.mem_cons_of_mem _ hy))]

theorem lookup_perm (T1 T2 : Table α) (hn : NodupKeys T1) (hperm : T1.Perm T2)
    (w : String) : T1.lookup w = T2.lookup w := by
  have hn2 : NodupKeys T2 := (List.Perm.nodup_iff (hperm.map Prod.fst)).mp hn
  cases hl : T1.lookup w with
  | none =>
    have hk := (lookup_eq_none_iff_not_key T1 w).mp hl
    have hk2 : w ∉ keys T2 := fun hc => hk ((hperm.map Prod.fst).symm.subset hc)
    exact ((lookup_eq_none_iff_not_key T2 w).mpr hk2).symm
  | some v =>
    exact (lookup_of_mem T2 hn2 w v (hperm.subset (lookup_mem T1 w v hl))).symm

theorem queryFits_perm (vec : List α) (skips : List String) (T1 T2 : Table α)
    (hperm : T1.Perm T2) (h : QueryFits vec skips T1) : QueryFits vec skips T2 :=
  fun e he hs => h e (hperm.symm.subset he) hs

section Scores

variable [Zero α] [Add α] [Mul α]

theorem candidates_eq_map (vec : List α) (skips : List String) :
    ∀ (vecs : Table α) (cs : List (WordDistance α)),
      candidates vec skips vecs = some cs →
      cs = (eligible skips vecs).map
        (fun e => (⟨e.1, (dotProduct vec e.2).getD 0⟩ : WordDistance α)) := by
  intro vecs
  induction vecs with
  | nil => intro cs h; simp [candidates] at h; subst h; rfl
  | cons e rest ih =>
    intro cs h
    unfold candidates at h
    by_cases hskip : e.1 ∈ skips
    · simp only [hskip, if_true] at h
      simpa [eligible, List.filter_cons, hskip] using ih cs h
    · simp only [hskip, if_false] at h
      cases hd : dotProduct vec e.2 with
      | none => simp [hd] at h
      | some dist =>
        cases hc : candidates vec skips rest with
        | none => simp [hd, hc] at h
        | some cs1 =>
          simp only [hd, hc, Option.some.injEq] at h
          subst h
          have hrec := ih cs1 hc
          have hp : decide (e.1 ∉ skips) = true := by simpa using hskip
          simp only [eligible] at hrec ⊢
          rw [List.filter_cons, if_pos hp, List.map_cons, ← hrec, hd]
          rfl

/-- The scored candidates of two enumerations of one table are permutations
of each other, and are undefined together. -/
theorem candidates_perm (vec : List α) (skips : List String) (T1 T2 : Table α)
    (hperm : T1.Perm T2) :
    (candidates vec skips T1 = none ∧ candidates vec skips T2 = none)
      ∨ ∃ cs1 cs2, candidates vec skips T1 = some cs1 ∧ candidates vec skips T2 = some cs2
          ∧ cs1.Perm cs2 := by
  cases h1 : candidates vec skips T1 with
  | none =>
    left
    refine ⟨rfl, ?_⟩
    cases h2 : candidates vec skips T2 with
    | none => rfl
    | some cs2 =>
      have hfit2 : QueryFits vec skips T2 :=
        (candidates_isSome vec skips T2).mp (by rw [h2]; rfl)
      have hsome := (candidates_isSome vec skips T1).mpr
        (queryFits_perm vec skips T2 T1 hperm.symm hfit2)
      rw [h1] at hsome
      simp at hsome
  | some cs1 =>
    right
    have hfit1 : QueryFits vec skips T1 :=
      (candidates_isSome vec skips T1).mp (by rw [h1]; rfl)
    have hsome := (candidates_isSome vec skips T2).mpr
      (queryFits_perm vec skips T1 T2 hperm hfit1)
    obtain ⟨cs2, h2⟩ := Option.isSome_iff_exists.mp hsome
    refine ⟨cs1, cs2, rfl, h2, ?_⟩
    rw [candidates_eq_map vec skips T1 cs1 h1, candidates_eq_map vec skips T2 cs2 h2]
    exact (hperm.filter _).map _

end Scores

variable [LinearOrder α]

/-- Without ties the bounded insertion of two permutations of the candidates
ends in the same buffer. -/
theorem fold_perm (k : Nat) (cs1 cs2 : List (WordDistance α)) (hperm : cs1.Perm cs2)
    (hnodup : (scores cs1).Nodup) :
    cs1.foldl (boundedInsert k) [] = cs2.foldl (boundedInsert k) [] := by
  apply eq_of_map_eq_of_inj WordDistance.Distance
  · have h1 := scores_fold_eq_sort k cs1
    have h2 := scores_fold_eq_sort k cs2
    unfold scores at h1 h2
    rw [h1, h2]
    congr 1
    apply List.eq_of_perm_of_sorted (r := (· ≥ ·))
    · exact ((List.perm_insertionSort _ _).trans (hperm.map _)).trans
        (List.perm_insertionSort _ _).symm
    · exact List.sorted_insertionSort _ _
    · exact List.sorted_insertionSort _ _
  · intro x hx y hy hxy
    have hx1 : x ∈ cs1 := by simpa using (fold_subperm k cs1 []).subset hx
    have hy2 : y ∈ cs2 := by simpa using (fold_subperm k cs2 []).subset hy
    have hy1 : y ∈ cs1 := hperm.symm.subset hy2
    exact List.inj_on_of_nodup_map hnodup hx1 hy1 hxy

variable [Zero α] [Add α] [Mul α]

theorem distance_perm (T1 T2 : Table α) (hperm : T1.Perm T2) (vec : List α)
    (skips : List String) (limit : Int)
    (hties : ∀ cs, candidates vec skips T1 = some cs → (scores cs).Nodup) :
    distance T1 vec skips limit = distance T2 vec skips limit := by
  rw [distance_eq, distance_eq]
  rcases candidates_perm vec skips T1 T2 hperm with ⟨h1, h2⟩ | ⟨cs1, cs2, h1, h2, hp⟩
  · rw [h1, h2]
  · rw [h1, h2]
    simp only
    rw [fold_perm limit.toNat cs1 cs2 hp (hties cs1 h1)]

/-- C19 as amended: with scores taken in a total order (no NaN), for every
two enumeration orders of one table (lists that are permutations of each
other), every query vector, skip set and limit, if the
scores of the entries that are not skipped are pairwise distinct then
`distance` returns the identical list, words, scores and order; hence, on
tables with unique keys, `Distance` and `Analogy` do not depend on the
enumeration order whenever the scores of their query have no ties. -/
theorem distance_order_independent [Sub α] (T1 T2 : Table α) (hperm : T1.Perm T2) :
    (∀ (vec : List α) (skips : List String) (limit : Int),
        (∀ cs, candidates vec skips T1 = some cs → (scores cs).Nodup) →
        distance T1 vec skips limit = distance T2 vec skips limit)
    ∧ (NodupKeys T1 → ∀ (w : String) (limit : Int),
        (∀ v cs, T1.lookup w = some v → candidates v [w] T1 = some cs → (scores cs).Nodup) →
        Distance T1 w limit = Distance T2 w limit)
    ∧ (NodupKeys T1 → ∀ (w1 w2 w3 : String) (limit : Int),
        (∀ v1 v2 v3 d q cs, T1.lookup w1 = some v1 → T1.lookup w2 = some v2 →
          T1.lookup w3 = some v3 → minus v2 v1 = some d → plus d v3 = some q →
          candidates q [w1, w2, w3] T1 = some cs → (scores cs).Nodup) →
        Analogy T1 w1 w2 w3 limit = Analogy T2 w1 w2 w3 limit) := by
  refine ⟨fun vec skips limit h => distance_perm T1 T2 hperm vec skips limit h, ?_, ?_⟩
  · intro hn w limit hties
    have hl := lookup_perm T1 T2 hn hperm w
    unfold Distance
    rw [← hl]
    cases hv : T1.lookup w with
    | none => rfl
    | some v =>
      simp only
      exact distance_perm T1 T2 hperm v [w] limit (fun cs hcs => hties v cs hv hcs)
  · intro hn w1 w2 w3 limit hties
    have hl1 := lookup_perm T1 T2 hn hperm w1
    have hl2 := lookup_perm T1 T2 hn hperm w2
    have hl3 := lookup_perm T1 T2 hn hperm w3
    cases hv1 : T1.lookup w1 with
    | none =>
      have hu1 : T2.lookup w1 = none := hl1 ▸ hv1
      simp only [Analogy, hv1, hu1]
    | some v1 =>
      have hu1 : T2.lookup w1 = some v1 := hl1 ▸ hv1
      cases hv2 : T1.lookup w2 with
      | none =>
        have hu2 : T2.lookup w2 = none := hl2 ▸ hv2
        simp only [Analogy, hv1, hu1, hv2, hu2]
      | some v2 =>
        have hu2 : T2.lookup w2 = some v2 := hl2 ▸ hv2
        cases hv3 : T1.lookup w3 with
        | none =>
          have hu3 : T2.lookup w3 = none := hl3 ▸ hv3
          simp only [Analogy, hv1, hu1, hv2, hu2, hv3, hu3]
        | some v3 =>
          have hu3 : T2.lookup w3 = some v3 := hl3 ▸ hv3
          rw [Analogy_of_lookup T1 w1 w2 w3 limit v1 v2 v3 hv1 hv2 hv3,
            Analogy_of_lookup T2 w1 w2 w3 limit v1 v2 v3 hu1 hu2 hu3]
          cases hm : minus v2 v1 with
          | none => rfl
          | some d =>
            simp only
            cases hp : plus d v3 with
            | none => rfl
            | some q =>
              simp only
              exact distance_perm T1 T2 hperm q [w1, w2, w3] limit
                (fun cs hcs => hties v1 v2 v3 d q cs hv1 hv2 hv3 hm hp hcs)

/-- C19 at a concrete table without ties, scanned in two orders: the same
list is returned. -/
theorem distance_order_independent_witness :
    List.Perm ([("cat", [3, 4]), ("dog", [4, 3]), ("fish", [5, 0])] : Table ℤ)
        [("fish", [5, 0]), ("dog", [4, 3]), ("cat", [3, 4])]
      ∧ candidates [3, 4] ["cat"] ([("cat", [3, 4]), ("dog", [4, 3]), ("fish", [5, 0])] : Table ℤ)
          = some [⟨"dog", 24⟩, ⟨"fish", 15⟩]
      ∧ distance ([("cat", [3, 4]), ("dog", [4, 3]), ("fish", [5, 0])] : Table ℤ)
          [3, 4] ["cat"] 1 = some ⟨some [⟨"dog", 24⟩], none⟩
      ∧ distance ([("cat", [3, 4]), ("dog", [4, 3]), ("fish", [5, 0])] : Table ℤ)
          [3, 4] ["cat"] 1
        = distance ([("fish", [5, 0]), ("dog", [4, 3]), ("cat", [3, 4])] : Table ℤ)
          [3, 4] ["cat"] 1 :=
  have hperm : List.Perm ([("cat", [3, 4]), ("dog", [4, 3]), ("fish", [5, 0])] : Table ℤ)
      [("fish", [5, 0]), ("dog", [4, 3]), ("cat", [3, 4])] := by decide
  have hcs : candidates [3, 4] ["cat"]
      ([("cat", [3, 4]), ("dog", [4, 3]), ("fish", [5, 0])] : Table ℤ)
        = some [⟨"dog", 24⟩, ⟨"fish", 15⟩] := by decide
  ⟨hperm, hcs, by decide,
    (distance_order_independent _ _ hperm).1 [3, 4] ["cat"] 1
      (fun cs h => by
        rw [hcs] at h
        cases h
        decide)⟩

end OrderIndependence

/-! ## Scores that are not totally ordered

The ranking theorems above take the scores in a total order.  The theorems
of this section evaluate the same definitions at scores with a NaN, and the
normalization at scores that overflow. -/

section NotTotal

theorem nonIncreasing_of_pairwise {α : Type} [LE α] (r : List (WordDistance α))
    (h : r.Pairwise (fun a b => b.Distance ≤ a.Distance)) : NonIncreasing r := by
  intro i j a b hij ha hb
  obtain ⟨hi, rfl⟩ := List.getElem?_eq_some_iff.mp ha
  obtain ⟨hj, rfl⟩ := List.getElem?_eq_some_iff.mp hb
  exact (List.pairwise_iff_getElem.mp h) i j hi hj hij

/-- C1 refuted as stated: with a NaN score, the table `{n: NaN, x: 6, y: 8}`
searched with limit `1` returns the scores `[NaN]` when the NaN entry is
enumerated first and `[8]` when it is enumerated last, while the first
element of the scores sorted in descending order is `8`: the scores returned
by `distance` are not the first `k` of the sorted scores. -/
theorem distance_refines_fullSort_nan :
    nanFirst.Perm nanLast
      ∧ returnedScores (distance nanFirst [NanInt.val 1] [] ((1 : Nat) : Int))
          = some [NanInt.nan]
      ∧ returnedScores (distance nanLast [NanInt.val 1] [] ((1 : Nat) : Int))
          = some [NanInt.val 8]
      ∧ fullSortThenTruncate nanFirst [NanInt.val 1] [] 1 = some [NanInt.val 8]
      ∧ returnedScores (distance nanFirst [NanInt.val 1] [] ((1 : Nat) : Int))
          ≠ fullSortThenTruncate nanFirst [NanInt.val 1] [] 1 := by
  decide

/-- C15 refuted as stated: on the sorted buffer `[5, 3, 1]` and the new score
NaN, `sort.Search` returns position `3`, and the entries before it do not
have a score strictly greater than NaN. -/
theorem Search_insertion_position_nan :
    (NonIncreasing ([⟨"a", NanInt.val 5⟩, ⟨"b", NanInt.val 3⟩, ⟨"c", NanInt.val 1⟩] :
        List (WordDistance NanInt))
      ∧ Search 3 (searchPred ([⟨"a", NanInt.val 5⟩, ⟨"b", NanInt.val 3⟩,
          ⟨"c", NanInt.val 1⟩] : List (WordDistance NanInt)) NanInt.nan) = some 3
      ∧ ¬ (NanInt.nan < NanInt.val 5))
    ∧ ¬ (∀ (buf : List (WordDistance NanInt)) (d : NanInt), NonIncreasing buf →
          ∃ ip, Search buf.length (searchPred buf d) = some ip
            ∧ ∀ (i : Nat) (x : WordDistance NanInt),
                i < ip → buf[i]? = some x → d < x.Distance) := by
  have hs : NonIncreasing ([⟨"a", NanInt.val 5⟩, ⟨"b", NanInt.val 3⟩,
      ⟨"c", NanInt.val 1⟩] : List (WordDistance NanInt)) :=
    nonIncreasing_of_pairwise _ (by decide)
  have hsearch : Search 3 (searchPred ([⟨"a", NanInt.val 5⟩, ⟨"b", NanInt.val 3⟩,
      ⟨"c", NanInt.val 1⟩] : List (WordDistance NanInt)) NanInt.nan) = some 3 := by decide
  have hnot : ¬ (NanInt.nan < NanInt.val 5) := by decide
  refine ⟨⟨hs, hsearch, hnot⟩, ?_⟩
  intro hall
  obtain ⟨ip, hip, hgt⟩ := hall _ NanInt.nan hs
  have hip3 : ip = 3 := by
    have h3 : some ip = some 3 := hip.symm.trans hsearch
    exact Option.some.inj h3
  subst hip3
  exact hnot (hgt 0 ⟨"a", NanInt.val 5⟩ (by decide) rfl)

/-- Why C16 as amended excludes NaN: scanning `a: 3`, `n: NaN`, `b: 3` in this
order returns `[a, n, b]`, the tie visited first in the earlier slot. -/
theorem tie_order_nan :
    distance ([("a", [NanInt.val 3]), ("n", [NanInt.nan]), ("b", [NanInt.val 3])] :
        Table NanInt) [NanInt.val 1] [] 3
      = some ⟨some [⟨"a", NanInt.val 3⟩, ⟨"n", NanInt.nan⟩, ⟨"b", NanInt.val 3⟩], none⟩ := by
  decide

/-- C19 refuted as stated: the scores NaN, `6`, `8` are pairwise distinct,
yet the two enumerations of the table return different lists. -/
theorem distance_order_dependent_nan :
    nanFirst.Perm nanLast
      ∧ candidates [NanInt.val 1] [] nanFirst
          = some [⟨"n", NanInt.nan⟩, ⟨"x", NanInt.val 6⟩, ⟨"y", NanInt.val 8⟩]
      ∧ (scores ([⟨"n", NanInt.nan⟩, ⟨"x", NanInt.val 6⟩, ⟨"y", NanInt.val 8⟩] :
          List (WordDistance NanInt))).Nodup
      ∧ distance nanFirst [NanInt.val 1] [] 3
          = some ⟨some [⟨"n", NanInt.nan⟩, ⟨"y", NanInt.val 8⟩, ⟨"x", NanInt.val 6⟩], none⟩
      ∧ distance nanLast [NanInt.val 1] [] 3
          = some ⟨some [⟨"y", NanInt.val 8⟩, ⟨"x", NanInt.val 6⟩, ⟨"n", NanInt.nan⟩], none⟩
      ∧ distance nanFirst [NanInt.val 1] [] 3 ≠ distance nanLast [NanInt.val 1] [] 3 := by
  decide

end NotTotal

end Go2vec
